import Mathlib

set_option maxRecDepth 40000

/-!
# Verification of the inverse-kinematics solver

Shallow embedding of `src/inverse_kinematics.py` (classes `Point`, `Stick`,
`Screen` and the solver `simulate_frame` / `calculate_joint`), together with
proofs settling the specification claims.

Modelling conventions:
* Python object identity is modelled by list indices: sticks refer to points
  by their index in `Screen.points`, and `calculate_joint` receives the index
  of a stick in `Screen.sticks`.  (`a is b` on distinct objects in the lists
  corresponds exactly to index equality.)
* numpy float arithmetic is idealised as exact real arithmetic (`ℝ`); the
  Euclidean norm `numpy.linalg.norm` is `Real.sqrt` of the sum of squares.
  A zero-distance division (which produces NaN in numpy) is recorded in a
  boolean "degenerate division happened" flag that is threaded through the
  solver; the positions computed after such a division follow Lean's
  `x / 0 = 0` convention and are only ever discussed under the hypothesis
  that the flag is `false`.
* The unbounded Python recursion in `calculate_joint` is modelled with an
  explicit fuel parameter; `none` means the fuel was exhausted.  Statements
  about terminating runs hypothesise `= some _`, and non-termination of the
  source recursion corresponds to `∀ fuel, ... = none`.
-/

namespace IK

/-- Euclidean distance between two 2D points
(`numpy.linalg.norm(p - q)` in the source, imported there as `distance`). -/
noncomputable def dist2 (p q : ℝ × ℝ) : ℝ :=
  Real.sqrt ((p.1 - q.1) ^ 2 + (p.2 - q.2) ^ 2)

/-- `class Point`: a 2D position, a locked flag, and the (never consulted)
previous position captured at creation. -/
structure Point where
  position : ℝ × ℝ
  locked : Bool
  prevPosition : ℝ × ℝ

/-- `class Stick`: two endpoint references (modelled as indices into
`Screen.points`) and the stored rest length. -/
structure Stick where
  pointA : Nat
  pointB : Nat
  length : ℝ

/-- The mutable aggregate owned by `class Screen`: the insertion-ordered
point and stick collections.  (The tkinter canvas state is I/O glue and is
not modelled.) -/
structure Screen where
  points : List Point
  sticks : List Stick

/-- The `letter` argument of `calculate_joint` (`"A"` or `"B"`). -/
inductive Letter where
  | A
  | B
deriving DecidableEq

/-- `joint = stick.pointA if letter == "A" else stick.pointB`. -/
def Stick.jointIdx (st : Stick) : Letter → Nat
  | .A => st.pointA
  | .B => st.pointB

/-- `prevJoint = stick.pointB if letter == "A" else stick.pointA`. -/
def Stick.prevIdx (st : Stick) : Letter → Nat
  | .A => st.pointB
  | .B => st.pointA

/-- Position of the point at index `i` (out-of-range reads, which would raise
in Python and are never reached on valid calls, default to the origin). -/
def posOf (s : Screen) (i : Nat) : ℝ × ℝ :=
  match s.points[i]? with
  | some p => p.position
  | none => (0, 0)

/-- Locked flag of the point at index `i` (`stick.pointA.locked` etc.). -/
def isLockedAt (s : Screen) (i : Nat) : Bool :=
  match s.points[i]? with
  | some p => p.locked
  | none => false

/-- `Screen.create_point`: append a new unlocked point at the given
coordinates (`prevPosition` is captured as the same coordinates). -/
def Screen.create_point (s : Screen) (x y : ℝ) : Screen :=
  { s with points := s.points ++ [⟨(x, y), false, (x, y)⟩] }

/-- `Screen.create_stick`: append a stick between the two given points whose
stored length is the current distance between their positions.  The source
performs no validation whatsoever. -/
noncomputable def Screen.create_stick (s : Screen) (a b : Nat) : Screen :=
  { s with sticks := s.sticks ++ [⟨a, b, dist2 (posOf s a) (posOf s b)⟩] }

/-- `point.locked = not point.locked` (from the release handler). -/
def Screen.toggle_lock (s : Screen) (i : Nat) : Screen :=
  { s with
    points :=
      match s.points[i]? with
      | some p => s.points.set i { p with locked := !p.locked }
      | none => s.points }

/-- `self.moving_point.position = position` (from the drag handler). -/
def Screen.set_position (s : Screen) (i : Nat) (pos : ℝ × ℝ) : Screen :=
  { s with
    points :=
      match s.points[i]? with
      | some p => s.points.set i { p with position := pos }
      | none => s.points }

/-- The adjacency scan at the end of `calculate_joint`:
`for next_stick in [i for i in self.sticks if i is not stick]` followed by
the `pointA is joint` / `pointB is joint` tests with early `return`.
`k` is the list index of the first stick of the remaining scan. -/
def nextIncidentAux (c j : Nat) : List Stick → Nat → Option (Nat × Letter)
  | [], _ => none
  | st :: rest, k =>
    if k = c then nextIncidentAux c j rest (k + 1)
    else if st.pointA = j then some (k, .B)
    else if st.pointB = j then some (k, .A)
    else nextIncidentAux c j rest (k + 1)

/-- The stick (and continuation letter) that `calculate_joint` recurses
into from joint `j`, having arrived along stick `c`. -/
def nextIncident (sticks : List Stick) (c j : Nat) : Option (Nat × Letter) :=
  nextIncidentAux c j sticks 0

/-- The constraint step of `calculate_joint`:
`direction = (joint.position - prevJoint.position) / distance(...)` followed
by `joint.position = prevJoint.position + direction * stick.length`. -/
noncomputable def snapPos (jpos ppos : ℝ × ℝ) (len : ℝ) : ℝ × ℝ :=
  (ppos.1 + (jpos.1 - ppos.1) / dist2 jpos ppos * len,
   ppos.2 + (jpos.2 - ppos.2) / dist2 jpos ppos * len)

/-- Whether the normalization above divided by a zero distance (in which
case numpy produces NaN coordinates; the source performs no check). -/
noncomputable def degenAt (jpos ppos : ℝ × ℝ) : Bool :=
  decide (dist2 jpos ppos = 0)

/-- `Screen.calculate_joint(stick, letter)`, with fuel for the unbounded
recursion.  Returns the updated screen paired with a flag recording whether
a zero-distance normalization (NaN in numpy) was performed anywhere in the
call tree.  `none` = fuel exhausted. -/
noncomputable def calculate_joint : Nat → Screen → Nat → Letter → Option (Screen × Bool)
  | 0, _, _, _ => none
  | fuel + 1, s, c, l =>
    match s.sticks[c]? with
    | none => some (s, false)
    | some st =>
      match s.points[st.jointIdx l]? with
      | none => some (s, false)
      | some jp =>
        if jp.locked then some (s, false)
        else
          let s' : Screen :=
            { s with
              points := s.points.set (st.jointIdx l)
                { jp with
                  position := snapPos jp.position (posOf s (st.prevIdx l)) st.length } }
          match nextIncident s'.sticks c (st.jointIdx l) with
          | none => some (s', degenAt jp.position (posOf s (st.prevIdx l)))
          | some (k, l') =>
            match calculate_joint fuel s' k l' with
            | none => none
            | some (s'', f) => some (s'', degenAt jp.position (posOf s (st.prevIdx l)) || f)

/-- The body of one iteration of `simulate_frame`: scan the sticks whose
indices are in `ks` (in order), dispatching on the locked endpoints exactly
as the source's `if stick.pointA.locked ... elif stick.pointB.locked ...`. -/
noncomputable def sweepFrom (fuel : Nat) : Screen → List Nat → Option (Screen × Bool)
  | s, [] => some (s, false)
  | s, k :: ks =>
    match s.sticks[k]? with
    | none => sweepFrom fuel s ks
    | some st =>
      if isLockedAt s st.pointA then
        match calculate_joint fuel s k .B with
        | none => none
        | some (s', f) =>
          match sweepFrom fuel s' ks with
          | none => none
          | some (s'', f') => some (s'', f || f')
      else if isLockedAt s st.pointB then
        match calculate_joint fuel s k .A with
        | none => none
        | some (s', f) =>
          match sweepFrom fuel s' ks with
          | none => none
          | some (s'', f') => some (s'', f || f')
      else sweepFrom fuel s ks

/-- One full pass of `for stick in self.sticks: ...`. -/
noncomputable def sweep (fuel : Nat) (s : Screen) : Option (Screen × Bool) :=
  sweepFrom fuel s (List.range s.sticks.length)

/-- `for _ in range(iters): <sweep>`. -/
noncomputable def iterateSweeps (fuel : Nat) : Nat → Screen → Option (Screen × Bool)
  | 0, s => some (s, false)
  | n + 1, s =>
    match sweep fuel s with
    | none => none
    | some (s', f) =>
      match iterateSweeps fuel n s' with
      | none => none
      | some (s'', f') => some (s'', f || f')

/-- `Config.STICK_ITERATIONS` (the solver's iteration budget). -/
def STICK_ITERATIONS : Nat := 10

/-- `Screen.simulate_frame`: `Config.STICK_ITERATIONS` sweeps over all
sticks (the trailing `draw_screen()` is I/O glue and is not modelled). -/
noncomputable def Screen.simulate_frame (fuel : Nat) (s : Screen) : Option (Screen × Bool) :=
  iterateSweeps fuel STICK_ITERATIONS s

/-!
## A computable integer mirror for collinear configurations

All concrete runs needed below keep every point on the x-axis with integer
coordinates and integer stick lengths.  There the Euclidean distance
degenerates to `|Δx|` and the normalised direction `(Δx)/|Δx|` is the sign
of `Δx` (with `0/0 = 0` matching `Int.sign`-style behaviour of `zsign`), so
the whole solver stays inside `ℤ`.  The following mirror of the solver on
integer x-coordinates is computable (concrete runs are settled by `decide`),
and the transport lemmas afterwards prove that it simulates the real
embedding exactly on embedded states.
-/

/-- Collinear mirror of `Point`: only the (integer) x-coordinate is kept. -/
structure ZPoint where
  x : ℤ
  locked : Bool
  prevx : ℤ
deriving DecidableEq

/-- Collinear mirror of `Stick`. -/
structure ZStick where
  pointA : Nat
  pointB : Nat
  length : ℤ
deriving DecidableEq

/-- Collinear mirror of `Screen`. -/
structure ZScreen where
  points : List ZPoint
  sticks : List ZStick
deriving DecidableEq

def zposOf (s : ZScreen) (i : Nat) : ℤ :=
  match s.points[i]? with
  | some p => p.x
  | none => 0

def zIsLockedAt (s : ZScreen) (i : Nat) : Bool :=
  match s.points[i]? with
  | some p => p.locked
  | none => false

def ZStick.jointIdx (st : ZStick) : Letter → Nat
  | .A => st.pointA
  | .B => st.pointB

def ZStick.prevIdx (st : ZStick) : Letter → Nat
  | .A => st.pointB
  | .B => st.pointA

def zNextIncidentAux (c j : Nat) : List ZStick → Nat → Option (Nat × Letter)
  | [], _ => none
  | st :: rest, k =>
    if k = c then zNextIncidentAux c j rest (k + 1)
    else if st.pointA = j then some (k, .B)
    else if st.pointB = j then some (k, .A)
    else zNextIncidentAux c j rest (k + 1)

def zNextIncident (sticks : List ZStick) (c j : Nat) : Option (Nat × Letter) :=
  zNextIncidentAux c j sticks 0

/-- The sign of an integer, written with kernel-reducible `if`s. -/
def zsign (z : ℤ) : ℤ :=
  if z < 0 then -1 else if z = 0 then 0 else 1

/-- Collinear mirror of `snapPos`: `Δx / |Δx|` is `zsign Δx`. -/
def zSnapX (jx px len : ℤ) : ℤ :=
  px + zsign (jx - px) * len

/-- Collinear mirror of `degenAt`. -/
def zDegenAt (jx px : ℤ) : Bool :=
  decide (jx - px = 0)

def zCalculateJoint : Nat → ZScreen → Nat → Letter → Option (ZScreen × Bool)
  | 0, _, _, _ => none
  | fuel + 1, s, c, l =>
    match s.sticks[c]? with
    | none => some (s, false)
    | some st =>
      match s.points[st.jointIdx l]? with
      | none => some (s, false)
      | some jp =>
        if jp.locked then some (s, false)
        else
          let s' : ZScreen :=
            { s with
              points := s.points.set (st.jointIdx l)
                { jp with x := zSnapX jp.x (zposOf s (st.prevIdx l)) st.length } }
          match zNextIncident s'.sticks c (st.jointIdx l) with
          | none => some (s', zDegenAt jp.x (zposOf s (st.prevIdx l)))
          | some (k, l') =>
            match zCalculateJoint fuel s' k l' with
            | none => none
            | some (s'', f) => some (s'', zDegenAt jp.x (zposOf s (st.prevIdx l)) || f)

def zSweepFrom (fuel : Nat) : ZScreen → List Nat → Option (ZScreen × Bool)
  | s, [] => some (s, false)
  | s, k :: ks =>
    match s.sticks[k]? with
    | none => zSweepFrom fuel s ks
    | some st =>
      if zIsLockedAt s st.pointA then
        match zCalculateJoint fuel s k .B with
        | none => none
        | some (s', f) =>
          match zSweepFrom fuel s' ks with
          | none => none
          | some (s'', f') => some (s'', f || f')
      else if zIsLockedAt s st.pointB then
        match zCalculateJoint fuel s k .A with
        | none => none
        | some (s', f) =>
          match zSweepFrom fuel s' ks with
          | none => none
          | some (s'', f') => some (s'', f || f')
      else zSweepFrom fuel s ks

def zSweep (fuel : Nat) (s : ZScreen) : Option (ZScreen × Bool) :=
  zSweepFrom fuel s (List.range s.sticks.length)

def zIterateSweeps (fuel : Nat) : Nat → ZScreen → Option (ZScreen × Bool)
  | 0, s => some (s, false)
  | n + 1, s =>
    match zSweep fuel s with
    | none => none
    | some (s', f) =>
      match zIterateSweeps fuel n s' with
      | none => none
      | some (s'', f') => some (s'', f || f')

def zSimulateFrame (fuel : Nat) (s : ZScreen) : Option (ZScreen × Bool) :=
  zIterateSweeps fuel STICK_ITERATIONS s

/-!
## Transport: the integer mirror simulates the real embedding
-/

/-- Embed an integer collinear point onto the x-axis of the plane. -/
noncomputable def embedPoint (p : ZPoint) : Point :=
  ⟨((p.x : ℝ), 0), p.locked, ((p.prevx : ℝ), 0)⟩

noncomputable def embedStick (st : ZStick) : Stick :=
  ⟨st.pointA, st.pointB, (st.length : ℝ)⟩

noncomputable def embedScreen (s : ZScreen) : Screen :=
  ⟨s.points.map embedPoint, s.sticks.map embedStick⟩

theorem dist2_collinear (a b : ℝ) : dist2 (a, 0) (b, 0) = |a - b| := by
  simp only [dist2]
  rw [show (a, (0 : ℝ)).2 - (b, (0 : ℝ)).2 = 0 by norm_num]
  simp [Real.sqrt_sq_eq_abs]

theorem embed_posOf (s : ZScreen) (i : Nat) :
    posOf (embedScreen s) i = (((zposOf s i : ℤ) : ℝ), 0) := by
  simp only [posOf, zposOf, embedScreen, List.getElem?_map]
  cases s.points[i]? with
  | none => simp
  | some p => simp [embedPoint]

theorem embed_isLockedAt (s : ZScreen) (i : Nat) :
    isLockedAt (embedScreen s) i = zIsLockedAt s i := by
  simp only [isLockedAt, zIsLockedAt, embedScreen, List.getElem?_map]
  cases s.points[i]? with
  | none => simp
  | some p => simp [embedPoint]

theorem embed_nextIncidentAux (c j : Nat) (sticks : List ZStick) (k : Nat) :
    nextIncidentAux c j (sticks.map embedStick) k = zNextIncidentAux c j sticks k := by
  induction sticks generalizing k with
  | nil => rfl
  | cons st rest ih =>
    simp only [List.map_cons, nextIncidentAux, zNextIncidentAux, embedStick, ih]

theorem embed_nextIncident (sticks : List ZStick) (c j : Nat) :
    nextIncident (sticks.map embedStick) c j = zNextIncident sticks c j :=
  embed_nextIncidentAux c j sticks 0

theorem embedStick_jointIdx (st : ZStick) (l : Letter) :
    (embedStick st).jointIdx l = st.jointIdx l := by
  cases l <;> rfl

theorem embedStick_prevIdx (st : ZStick) (l : Letter) :
    (embedStick st).prevIdx l = st.prevIdx l := by
  cases l <;> rfl

theorem dist2_cast (a b : ℤ) :
    dist2 ((a : ℝ), 0) ((b : ℝ), 0) = ((|a - b| : ℤ) : ℝ) := by
  rw [dist2_collinear, Int.cast_abs, Int.cast_sub]

/-- `Δx / |Δx|` over `ℝ` is the (cast) integer sign, the degenerate case
`0 / 0 = 0` included. -/
theorem div_abs_eq_zsign (z : ℤ) : ((z : ℝ)) / |(z : ℝ)| = ((zsign z : ℤ) : ℝ) := by
  rcases lt_trichotomy z 0 with h | h | h
  · have hz : ((z : ℝ)) < 0 := by exact_mod_cast h
    rw [abs_of_neg hz, zsign, if_pos h, div_neg, div_self (ne_of_lt hz)]
    norm_num
  · subst h
    simp [zsign]
  · have hz : (0 : ℝ) < (z : ℝ) := by exact_mod_cast h
    rw [abs_of_pos hz, div_self (ne_of_gt hz), zsign, if_neg (by omega), if_neg (by omega)]
    norm_num

theorem embed_snapPos (jp : ZPoint) (s : ZScreen) (i : Nat) (st : ZStick) :
    snapPos (embedPoint jp).position (posOf (embedScreen s) i) (embedStick st).length
      = (((zSnapX jp.x (zposOf s i) st.length : ℤ) : ℝ), 0) := by
  rw [embed_posOf]
  show (_, _) = _
  rw [show (embedPoint jp).position = ((jp.x : ℝ), 0) from rfl]
  rw [dist2_cast]
  simp only [zSnapX, embedStick, Prod.mk.injEq]
  refine ⟨?_, ?_⟩
  · have : ((jp.x : ℝ)) - ((zposOf s i : ℤ) : ℝ) = (((jp.x - zposOf s i : ℤ) : ℝ)) := by
      push_cast
      ring
    rw [this, show ((|jp.x - zposOf s i| : ℤ) : ℝ) = |((jp.x - zposOf s i : ℤ) : ℝ)| by
      rw [Int.cast_abs], div_abs_eq_zsign]
    push_cast
    ring
  · norm_num

theorem embed_degenAt (jp : ZPoint) (s : ZScreen) (i : Nat) :
    degenAt (embedPoint jp).position (posOf (embedScreen s) i)
      = zDegenAt jp.x (zposOf s i) := by
  rw [degenAt, embed_posOf, show (embedPoint jp).position = ((jp.x : ℝ), 0) from rfl,
    dist2_cast, zDegenAt]
  simp only [Int.cast_eq_zero, abs_eq_zero]

theorem embed_setPoint (s : ZScreen) (j : Nat) (q : ZPoint) :
    ({ embedScreen s with points := (embedScreen s).points.set j (embedPoint q) } : Screen)
      = embedScreen { s with points := s.points.set j q } := by
  show Screen.mk _ _ = _
  rw [embedScreen, embedScreen]
  simp only [List.map_set]

theorem embed_calculate_joint (fuel : Nat) :
    ∀ (s : ZScreen) (c : Nat) (l : Letter),
      calculate_joint fuel (embedScreen s) c l
        = (zCalculateJoint fuel s c l).map (fun r => (embedScreen r.1, r.2)) := by
  induction fuel with
  | zero => intro s c l; rfl
  | succ fuel ih =>
    intro s c l
    rw [calculate_joint, zCalculateJoint]
    have hsticks : (embedScreen s).sticks[c]? = (s.sticks[c]?).map embedStick := by
      simp [embedScreen]
    cases hst : s.sticks[c]? with
    | none => simp [hsticks, hst]
    | some st =>
      rw [hsticks, hst]
      simp only [Option.map_some']
      have hpoints : (embedScreen s).points[st.jointIdx l]?
          = (s.points[st.jointIdx l]?).map embedPoint := by
        simp [embedScreen]
      rw [embedStick_jointIdx, hpoints]
      cases hjp : s.points[st.jointIdx l]? with
      | none => simp
      | some jp =>
        simp only [Option.map_some']
        show (if (embedPoint jp).locked then _ else _) = _
        rw [show (embedPoint jp).locked = jp.locked from rfl]
        by_cases hl : jp.locked
        · simp [hl]
        · simp only [hl, if_false, Bool.false_eq_true]
          have hpt : (Point.mk
                (((zSnapX jp.x (zposOf s (st.prevIdx l)) st.length : ℤ) : ℝ), 0)
                false (embedPoint jp).prevPosition)
              = embedPoint ⟨zSnapX jp.x (zposOf s (st.prevIdx l)) st.length, false, jp.prevx⟩ :=
            rfl
          rw [embedStick_prevIdx, embed_snapPos, embed_degenAt, hpt, embed_setPoint,
            show (embedScreen s).sticks = s.sticks.map embedStick from rfl,
            embed_nextIncident]
          cases hni : zNextIncident s.sticks c (st.jointIdx l) with
          | none => rfl
          | some kl =>
            obtain ⟨k, l'⟩ := kl
            simp only [ih]
            cases hq : zCalculateJoint fuel
                { s with
                  points := s.points.set (st.jointIdx l)
                    ⟨zSnapX jp.x (zposOf s (st.prevIdx l)) st.length, false, jp.prevx⟩ } k l' with
            | none => rfl
            | some r => rfl

theorem embed_sweepFrom (fuel : Nat) :
    ∀ (s : ZScreen) (ks : List Nat),
      sweepFrom fuel (embedScreen s) ks
        = (zSweepFrom fuel s ks).map (fun r => (embedScreen r.1, r.2)) := by
  intro s ks
  induction ks generalizing s with
  | nil => rfl
  | cons k ks ih =>
    rw [sweepFrom, zSweepFrom]
    have hsticks : (embedScreen s).sticks[k]? = (s.sticks[k]?).map embedStick := by
      simp [embedScreen]
    cases hst : s.sticks[k]? with
    | none => simp only [hsticks, hst, Option.map_none', ih]
    | some st =>
      rw [hsticks, hst]
      simp only [Option.map_some']
      rw [show (embedStick st).pointA = st.pointA from rfl,
        show (embedStick st).pointB = st.pointB from rfl,
        embed_isLockedAt, embed_isLockedAt]
      by_cases ha : zIsLockedAt s st.pointA
      · simp only [ha, if_true]
        rw [embed_calculate_joint]
        cases hc : zCalculateJoint fuel s k .B with
        | none => rfl
        | some r =>
          simp only [Option.map_some']
          rw [ih r.1]
          cases hs : zSweepFrom fuel r.1 ks with
          | none => rfl
          | some r' => rfl
      · simp only [ha, if_false, Bool.false_eq_true]
        by_cases hb : zIsLockedAt s st.pointB
        · simp only [hb, if_true]
          rw [embed_calculate_joint]
          cases hc : zCalculateJoint fuel s k .A with
          | none => rfl
          | some r =>
            simp only [Option.map_some']
            rw [ih r.1]
            cases hs : zSweepFrom fuel r.1 ks with
            | none => rfl
            | some r' => rfl
        · simp only [hb, if_false, Bool.false_eq_true, ih]

theorem embed_sweep (fuel : Nat) (s : ZScreen) :
    sweep fuel (embedScreen s) = (zSweep fuel s).map (fun r => (embedScreen r.1, r.2)) := by
  rw [sweep, zSweep, show (embedScreen s).sticks = s.sticks.map embedStick from rfl,
    List.length_map, embed_sweepFrom]

theorem embed_iterateSweeps (n : Nat) :
    ∀ (fuel : Nat) (s : ZScreen),
      iterateSweeps fuel n (embedScreen s)
        = (zIterateSweeps fuel n s).map (fun r => (embedScreen r.1, r.2)) := by
  induction n with
  | zero => intro fuel s; rfl
  | succ n ih =>
    intro fuel s
    rw [iterateSweeps, zIterateSweeps, embed_sweep]
    cases hs : zSweep fuel s with
    | none => rfl
    | some r =>
      simp only [Option.map_some']
      rw [ih fuel r.1]
      cases hi : zIterateSweeps fuel n r.1 with
      | none => rfl
      | some r' => rfl

theorem embed_simulate_frame (fuel : Nat) (s : ZScreen) :
    (embedScreen s).simulate_frame fuel
      = (zSimulateFrame fuel s).map (fun r => (embedScreen r.1, r.2)) := by
  rw [Screen.simulate_frame, zSimulateFrame, embed_iterateSweeps]

/-!
## Structural effect of the solver

The solver only ever assigns `joint.position`, and only after checking
`joint.locked` is false.  `SolverStep s s'` records everything that is
therefore preserved from `s` to `s'`.
-/

def SolverStep (s s' : Screen) : Prop :=
  s'.sticks = s.sticks ∧
  s'.points.length = s.points.length ∧
  ∀ (i : Nat) (p : Point), s.points[i]? = some p →
    ∃ p' : Point, s'.points[i]? = some p' ∧ p'.locked = p.locked ∧
      p'.prevPosition = p.prevPosition ∧ (p.locked = true → p'.position = p.position)

theorem solverStep_refl (s : Screen) : SolverStep s s :=
  ⟨rfl, rfl, fun _ p hp => ⟨p, hp, rfl, rfl, fun _ => rfl⟩⟩

theorem solverStep_trans {s t u : Screen} (h1 : SolverStep s t) (h2 : SolverStep t u) :
    SolverStep s u := by
  obtain ⟨hs1, hl1, hp1⟩ := h1
  obtain ⟨hs2, hl2, hp2⟩ := h2
  refine ⟨hs2.trans hs1, hl2.trans hl1, fun i p hp => ?_⟩
  obtain ⟨p', hp', hlk, hpv, hps⟩ := hp1 i p hp
  obtain ⟨p'', hp'', hlk', hpv', hps'⟩ := hp2 i p' hp'
  exact ⟨p'', hp'', hlk'.trans hlk, hpv'.trans hpv,
    fun h => (hps' (hlk.symm ▸ h)).trans (hps h)⟩

theorem solverStep_set (s : Screen) (j : Nat) (jp : Point) (newpos : ℝ × ℝ)
    (hj : s.points[j]? = some jp) (hl : jp.locked = false) :
    SolverStep s { s with points := s.points.set j { jp with position := newpos } } := by
  refine ⟨rfl, by simp, fun i p hp => ?_⟩
  by_cases hij : j = i
  · subst hij
    have hlen : j < s.points.length := by
      by_contra hge
      rw [List.getElem?_eq_none (by omega)] at hj
      exact Option.noConfusion hj
    refine ⟨{ jp with position := newpos }, ?_, ?_, ?_, ?_⟩
    · simp [List.getElem?_set_self hlen]
    · rw [hj] at hp
      cases hp
      rfl
    · rw [hj] at hp
      cases hp
      rfl
    · intro hcon
      rw [hj] at hp
      cases hp
      rw [hl] at hcon
      exact absurd hcon (by simp)
  · exact ⟨p, by rw [show ({ s with points := s.points.set j { jp with position := newpos } }
        : Screen).points = s.points.set j { jp with position := newpos } from rfl,
        List.getElem?_set_ne hij, hp], rfl, rfl, fun _ => rfl⟩

theorem calculate_joint_solverStep (fuel : Nat) :
    ∀ (s : Screen) (c : Nat) (l : Letter) (s' : Screen) (f : Bool),
      calculate_joint fuel s c l = some (s', f) → SolverStep s s' := by
  induction fuel with
  | zero => intro s c l s' f h; exact Option.noConfusion h
  | succ fuel ih =>
    intro s c l s' f h
    rw [calculate_joint] at h
    split at h
    · cases h
      exact solverStep_refl s
    · rename_i st hst
      split at h
      · cases h
        exact solverStep_refl s
      · rename_i jp hjp
        split at h
        · cases h
          exact solverStep_refl s
        · rename_i hl
          simp only [] at h
          have hstep := solverStep_set s (st.jointIdx l) jp
            (snapPos jp.position (posOf s (st.prevIdx l)) st.length) hjp
            (by revert hl; cases jp.locked <;> simp)
          split at h
          · cases h
            exact hstep
          · rename_i k l' hni
            split at h
            · exact Option.noConfusion h
            · rename_i s2 f2 hrec
              cases h
              exact solverStep_trans hstep (ih _ k l' _ _ hrec)

theorem sweepFrom_solverStep (fuel : Nat) :
    ∀ (ks : List Nat) (s : Screen) (s' : Screen) (f : Bool),
      sweepFrom fuel s ks = some (s', f) → SolverStep s s' := by
  intro ks
  induction ks with
  | nil =>
    intro s s' f h
    rw [sweepFrom] at h
    cases h
    exact solverStep_refl s
  | cons k ks ih =>
    intro s s' f h
    rw [sweepFrom] at h
    split at h
    · exact ih s s' f h
    · rename_i st hst
      split at h
      · split at h
        · exact Option.noConfusion h
        · rename_i s1 f1 hc
          split at h
          · exact Option.noConfusion h
          · rename_i s2 f2 hs2
            cases h
            exact solverStep_trans (calculate_joint_solverStep fuel s k .B s1 f1 hc)
              (ih s1 _ _ hs2)
      · split at h
        · split at h
          · exact Option.noConfusion h
          · rename_i s1 f1 hc
            split at h
            · exact Option.noConfusion h
            · rename_i s2 f2 hs2
              cases h
              exact solverStep_trans (calculate_joint_solverStep fuel s k .A s1 f1 hc)
                (ih s1 _ _ hs2)
        · exact ih s s' f h

theorem iterateSweeps_solverStep (n : Nat) :
    ∀ (fuel : Nat) (s s' : Screen) (f : Bool),
      iterateSweeps fuel n s = some (s', f) → SolverStep s s' := by
  induction n with
  | zero =>
    intro fuel s s' f h
    rw [iterateSweeps] at h
    cases h
    exact solverStep_refl s
  | succ n ih =>
    intro fuel s s' f h
    rw [iterateSweeps] at h
    split at h
    · exact Option.noConfusion h
    · rename_i s1 f1 hs1
      split at h
      · exact Option.noConfusion h
      · rename_i s2 f2 hs2
        cases h
        exact solverStep_trans (sweepFrom_solverStep fuel _ s s1 f1 hs1)
          (ih fuel s1 _ _ hs2)

theorem simulate_frame_solverStep (fuel : Nat) (s s' : Screen) (f : Bool)
    (h : s.simulate_frame fuel = some (s', f)) : SolverStep s s' :=
  iterateSweeps_solverStep STICK_ITERATIONS fuel s s' f h

theorem solverStep_locked_posOf {s s' : Screen} (h : SolverStep s s') (i : Nat)
    (hlk : isLockedAt s i = true) : posOf s' i = posOf s i := by
  obtain ⟨-, -, hp⟩ := h
  rw [isLockedAt] at hlk
  cases hpi : s.points[i]? with
  | none =>
    rw [hpi] at hlk
    exact absurd hlk (by simp)
  | some p =>
    rw [hpi] at hlk
    obtain ⟨p', hp', _, _, hpos⟩ := hp i p hpi
    rw [posOf, posOf, hpi, hp']
    exact hpos hlk

/-!
## Claim theorems
-/

/-- C2: a locked point's position is unchanged by a terminating `Resolve`
(`simulate_frame`) call, and more generally by any number of sweep
iterations, for any configuration of sticks: the solver never writes the
position of a locked point. -/
theorem c2_anchor_invariance :
    (∀ (fuel iters : Nat) (s s' : Screen) (f : Bool),
        iterateSweeps fuel iters s = some (s', f) →
        ∀ i : Nat, isLockedAt s i = true → posOf s' i = posOf s i) ∧
    (∀ (fuel : Nat) (s s' : Screen) (f : Bool),
        s.simulate_frame fuel = some (s', f) →
        ∀ i : Nat, isLockedAt s i = true → posOf s' i = posOf s i) := by
  constructor
  · intro fuel iters s s' f h i hlk
    exact solverStep_locked_posOf (iterateSweeps_solverStep iters fuel s s' f h) i hlk
  · intro fuel s s' f h i hlk
    exact solverStep_locked_posOf (simulate_frame_solverStep fuel s s' f h) i hlk

/-- A single-stick skeleton: anchor locked at the origin, free joint at
`(30, 0)`, rest length `50`. -/
def zA : ZScreen := ⟨[⟨0, true, 0⟩, ⟨30, false, 30⟩], [⟨0, 1, 50⟩]⟩

/-- The same skeleton after one `simulate_frame`: the joint snapped to
`(50, 0)`. -/
def zA1 : ZScreen := ⟨[⟨0, true, 0⟩, ⟨50, false, 30⟩], [⟨0, 1, 50⟩]⟩

theorem zA_run : zSimulateFrame 5 zA = some (zA1, false) := by decide

theorem embed_zA_run :
    (embedScreen zA).simulate_frame 5 = some (embedScreen zA1, false) := by
  rw [embed_simulate_frame, zA_run]
  rfl

/-- C2 witness: on the concrete single-stick run, the locked anchor's
position is unchanged. -/
theorem c2_anchor_invariance_witness :
    posOf (embedScreen zA1) 0 = posOf (embedScreen zA) 0 :=
  c2_anchor_invariance.2 5 (embedScreen zA) (embedScreen zA1) false embed_zA_run 0
    (by rw [embed_isLockedAt]; decide)

/-- C10: a terminating `Resolve` (`simulate_frame`) call mutates only the
position fields of unlocked points: the stick list (hence every stick's
endpoints and stored length), the number of points, every locked flag,
every `prevPosition`, and every locked point's position are unchanged. -/
theorem c10_solver_effect_scope (fuel : Nat) (s s' : Screen) (f : Bool)
    (h : s.simulate_frame fuel = some (s', f)) :
    s'.sticks = s.sticks ∧ s'.points.length = s.points.length ∧
    ∀ (i : Nat) (p p' : Point), s.points[i]? = some p → s'.points[i]? = some p' →
      p'.locked = p.locked ∧ p'.prevPosition = p.prevPosition ∧
      (p.locked = true → p'.position = p.position) := by
  obtain ⟨hsticks, hlen, hp⟩ := simulate_frame_solverStep fuel s s' f h
  refine ⟨hsticks, hlen, fun i p p' hpi hpi' => ?_⟩
  obtain ⟨p'', hp'', hlk, hpv, hps⟩ := hp i p hpi
  rw [hpi'] at hp''
  cases hp''
  exact ⟨hlk, hpv, hps⟩

/-- C10 witness: the concrete single-stick run keeps the stick list, the
point count, the locked flags and `prevPosition`s intact. -/
theorem c10_solver_effect_scope_witness :
    (embedScreen zA1).sticks = (embedScreen zA).sticks ∧
    (embedScreen zA1).points.length = (embedScreen zA).points.length ∧
    ∀ (i : Nat) (p p' : Point),
      (embedScreen zA).points[i]? = some p → (embedScreen zA1).points[i]? = some p' →
      p'.locked = p.locked ∧ p'.prevPosition = p.prevPosition ∧
      (p.locked = true → p'.position = p.position) :=
  c10_solver_effect_scope 5 (embedScreen zA) (embedScreen zA1) false embed_zA_run

/-- The spec's `FirstStickOtherThan(touching, excluding)`, written from its
words: scan the sticks in insertion order and return the first one (other
than `excluding`) whose `pointA` or `pointB` equals `touching`; none if no
such stick exists. -/
def firstStickOtherThanAux (touching excluding : Nat) : List Stick → Nat → Option Nat
  | [], _ => none
  | st :: rest, k =>
    if k ≠ excluding ∧ (st.pointA = touching ∨ st.pointB = touching) then some k
    else firstStickOtherThanAux touching excluding rest (k + 1)

def firstStickOtherThan (sticks : List Stick) (touching excluding : Nat) : Option Nat :=
  firstStickOtherThanAux touching excluding sticks 0

theorem nextIncidentAux_fst (c j : Nat) :
    ∀ (sticks : List Stick) (k : Nat),
      (nextIncidentAux c j sticks k).map Prod.fst = firstStickOtherThanAux j c sticks k := by
  intro sticks
  induction sticks with
  | nil => intro k; rfl
  | cons st rest ih =>
    intro k
    rw [nextIncidentAux, firstStickOtherThanAux]
    by_cases hkc : k = c
    · rw [if_pos hkc, if_neg (by simp [hkc]), ih]
    · rw [if_neg hkc]
      by_cases hA : st.pointA = j
      · rw [if_pos hA, if_pos ⟨hkc, Or.inl hA⟩]
        rfl
      · rw [if_neg hA]
        by_cases hB : st.pointB = j
        · rw [if_pos hB, if_pos ⟨hkc, Or.inr hB⟩]
          rfl
        · rw [if_neg hB, if_neg (by simp [hkc, hA, hB]), ih]

/-- C9: the adjacency step of the chain walk.  (a) The stick that
`calculate_joint` recurses into is exactly the spec's
`FirstStickOtherThan(joint, excluding := current stick)`: the first stick in
insertion order, other than the current one, incident to the joint.
(b) After updating the joint, `calculate_joint` either stops (no such
stick) or recurses into exactly that stick once and returns immediately
after, so at a joint shared by more than two sticks only one branch is
followed per descent. -/
theorem c9_first_match_adjacency :
    (∀ (sticks : List Stick) (c j : Nat),
        (nextIncident sticks c j).map Prod.fst = firstStickOtherThan sticks j c) ∧
    (∀ (fuel : Nat) (s : Screen) (c : Nat) (l : Letter) (st : Stick) (jp : Point),
        s.sticks[c]? = some st → s.points[st.jointIdx l]? = some jp → jp.locked = false →
        calculate_joint (fuel + 1) s c l =
          match nextIncident s.sticks c (st.jointIdx l) with
          | none =>
            some ({ s with
                points := s.points.set (st.jointIdx l)
                  { jp with
                    position := snapPos jp.position (posOf s (st.prevIdx l)) st.length } },
              degenAt jp.position (posOf s (st.prevIdx l)))
          | some (k, l') =>
            (calculate_joint fuel
                { s with
                  points := s.points.set (st.jointIdx l)
                    { jp with
                      position := snapPos jp.position (posOf s (st.prevIdx l)) st.length } }
                k l').map
              (fun r => (r.1, degenAt jp.position (posOf s (st.prevIdx l)) || r.2))) := by
  constructor
  · intro sticks c j
    exact nextIncidentAux_fst c j sticks 0
  · intro fuel s c l st jp hst hjp hl
    rw [calculate_joint, hst]
    simp only []
    rw [hjp]
    simp only []
    rw [if_neg (by simp [hl])]
    cases hni : nextIncident s.sticks c (st.jointIdx l) with
    | none => rfl
    | some kl =>
      obtain ⟨k, l'⟩ := kl
      simp only []
      cases hq : calculate_joint fuel
          { s with
            points := s.points.set (st.jointIdx l)
              { jp with
                position := snapPos jp.position (posOf s (st.prevIdx l)) st.length } } k l' with
      | none => rfl
      | some r => rfl

/-- A branch point: three sticks meet at point 1; from stick 0 the scan
must pick stick 1 (the first other incident stick in insertion order). -/
def zBranch : ZScreen :=
  ⟨[⟨0, true, 0⟩, ⟨10, false, 10⟩, ⟨20, false, 20⟩, ⟨30, false, 30⟩],
   [⟨0, 1, 10⟩, ⟨1, 2, 10⟩, ⟨1, 3, 20⟩]⟩

/-- C9 witness: on the branch-point skeleton the scan from stick 0 at
joint 1 picks stick 1, and on the single-stick skeleton `calculate_joint`
performs the joint update and stops (no other incident stick). -/
theorem c9_first_match_adjacency_witness :
    (nextIncident (embedScreen zBranch).sticks 0 1).map Prod.fst
        = firstStickOtherThan (embedScreen zBranch).sticks 1 0 ∧
    calculate_joint 4 (embedScreen zA) 0 .B
        = some ({ embedScreen zA with
            points := (embedScreen zA).points.set 1
              { embedPoint ⟨30, false, 30⟩ with
                position := snapPos (embedPoint ⟨30, false, 30⟩).position
                  (posOf (embedScreen zA) 0) (embedStick ⟨0, 1, 50⟩).length } },
          degenAt (embedPoint ⟨30, false, 30⟩).position (posOf (embedScreen zA) 0)) :=
  ⟨c9_first_match_adjacency.1 (embedScreen zBranch).sticks 0 1,
   c9_first_match_adjacency.2 3 (embedScreen zA) 0 .B (embedStick ⟨0, 1, 50⟩)
     (embedPoint ⟨30, false, 30⟩) rfl rfl rfl⟩

/-!
## The release handler (the creation boundary for sticks and lock toggles)
-/

/-- `Config.POINT_SIZE` (the hit radius of the pointer tests). -/
def POINT_SIZE : ℝ := 16

/-- The scan `for point in self.points: if distance(position - point.position)
< Config.POINT_SIZE: ...` — index of the first point within the hit radius. -/
noncomputable def findNearAux (pos : ℝ × ℝ) : List Point → Nat → Option Nat
  | [], _ => none
  | p :: rest, k =>
    if dist2 pos p.position < POINT_SIZE then some k
    else findNearAux pos rest (k + 1)

noncomputable def findNear (s : Screen) (pos : ℝ × ℝ) : Option Nat :=
  findNearAux pos s.points 0

/-- `Screen.release(event)`: returns the new screen together with the new
`tempPoint` and `moving_point` fields.  Mirrors the source exactly: a drag
in progress only clears `moving_point`; otherwise the first point under the
pointer is toggled when it is the originally pressed point (`tempPoint`),
a stick from `tempPoint` to it is created when it is a different point and
some point was pressed, and a fresh point is created when no point is under
the pointer. -/
noncomputable def Screen.release (s : Screen) (tempPoint movingPoint : Option Nat)
    (pos : ℝ × ℝ) : Screen × Option Nat × Option Nat :=
  match movingPoint with
  | some _ => (s, tempPoint, none)
  | none =>
    match findNear s pos with
    | some i =>
      if tempPoint = some i then (s.toggle_lock i, tempPoint, none)
      else
        match tempPoint with
        | some t => (s.create_stick t i, tempPoint, none)
        | none => (s, tempPoint, none)
    | none => (s.create_point pos.1 pos.2, none, none)

/-- A screen with a single unlocked point at `(5, 0)`. -/
def zOne : ZScreen := ⟨[⟨5, false, 5⟩], []⟩

theorem dist2_self (p : ℝ × ℝ) : dist2 p p = 0 := by
  simp [dist2]

/-- C3 counterexample: `create_stick` performs no validation at all — called
with the same point for both endpoints it appends a stick connecting the
point to itself (of rest length 0) instead of failing, and the stick
collection grows. -/
theorem c3_invalid_stick_counterexample :
    ((embedScreen zOne).create_stick 0 0).sticks = [⟨0, 0, (0 : ℝ)⟩] ∧
    (embedScreen zOne).sticks = [] := by
  constructor
  · rw [Screen.create_stick]
    show [(⟨0, 0, dist2 (posOf (embedScreen zOne) 0) (posOf (embedScreen zOne) 0)⟩ : Stick)]
      = [⟨0, 0, (0 : ℝ)⟩]
    rw [dist2_self]
  · rfl

/-- C3 (amended): the creation boundary, `release`, never appends a
self-stick: any stick it appends connects the previously selected point
`tempPoint` to a *different* point index (the same-point case toggles the
lock instead); in every other case the stick collection is unchanged. -/
theorem c3_release_no_self_stick (s : Screen) (temp moving : Option Nat) (pos : ℝ × ℝ) :
    ((s.release temp moving pos).1.sticks = s.sticks) ∨
    (∃ t i : Nat, temp = some t ∧ t ≠ i ∧
      (s.release temp moving pos).1.sticks
        = s.sticks ++ [⟨t, i, dist2 (posOf s t) (posOf s i)⟩]) := by
  unfold Screen.release
  cases moving with
  | some m => left; rfl
  | none =>
    simp only []
    cases hfn : findNear s pos with
    | none => left; rfl
    | some i =>
      simp only []
      by_cases hti : temp = some i
      · rw [if_pos hti]
        left
        rfl
      · rw [if_neg hti]
        cases temp with
        | none => left; rfl
        | some t =>
          right
          refine ⟨t, i, rfl, ?_, rfl⟩
          intro hcon
          exact hti (by rw [hcon])

/-- A degenerate skeleton: anchor and joint coincide at `(10, 0)`. -/
def zDegen : ZScreen := ⟨[⟨10, true, 10⟩, ⟨10, false, 10⟩], [⟨0, 1, 7⟩]⟩

/-- C4: at a degenerate input (anchor position = joint position) the code
does *not* report any failure — `calculate_joint` has no error outcome at
all — and it *does* perform the zero-distance normalization: the call
returns normally with the degenerate-division flag set (in numpy this
division produces NaN coordinates which are then assigned to
`joint.position`). -/
theorem c4_degenerate_division_performed :
    calculate_joint 3 (embedScreen zDegen) 0 .B = some (embedScreen zDegen, true) := by
  rw [embed_calculate_joint, show zCalculateJoint 3 zDegen 0 .B = some (zDegen, true) from by
    decide]
  rfl

/-- Two distinct points with coincident positions. -/
def zTwin : ZScreen := ⟨[⟨5, false, 5⟩, ⟨5, false, 5⟩], []⟩

theorem dist2_nonneg (p q : ℝ × ℝ) : 0 ≤ dist2 p q :=
  Real.sqrt_nonneg _

theorem dist2_pos_of_ne {p q : ℝ × ℝ} (h : p ≠ q) : 0 < dist2 p q := by
  rw [dist2]
  apply Real.sqrt_pos.mpr
  rcases show p.1 ≠ q.1 ∨ p.2 ≠ q.2 by
      by_contra hc
      push_neg at hc
      exact h (Prod.ext hc.1 hc.2) with h1 | h2
  · have h0 : (p.1 - q.1) ^ 2 ≠ 0 := pow_ne_zero 2 (sub_ne_zero.mpr h1)
    have hp : 0 < (p.1 - q.1) ^ 2 := lt_of_le_of_ne (sq_nonneg _) (Ne.symm h0)
    nlinarith [sq_nonneg (p.2 - q.2)]
  · have h0 : (p.2 - q.2) ^ 2 ≠ 0 := pow_ne_zero 2 (sub_ne_zero.mpr h2)
    have hp : 0 < (p.2 - q.2) ^ 2 := lt_of_le_of_ne (sq_nonneg _) (Ne.symm h0)
    nlinarith [sq_nonneg (p.1 - q.1)]

/-- C8 counterexample: a stick created between two (distinct) points with
coincident positions stores rest length 0, which is not positive — the
code never enforces positivity. -/
theorem c8_rest_length_counterexample :
    ((embedScreen zTwin).create_stick 0 1).sticks = [⟨0, 1, (0 : ℝ)⟩] ∧
    ¬ (0 : ℝ) < 0 := by
  constructor
  · rw [Screen.create_stick]
    show [(⟨0, 1, dist2 (posOf (embedScreen zTwin) 0) (posOf (embedScreen zTwin) 1)⟩ : Stick)]
      = [⟨0, 1, (0 : ℝ)⟩]
    rw [show posOf (embedScreen zTwin) 0 = posOf (embedScreen zTwin) 1 from rfl, dist2_self]
  · exact lt_irrefl 0

/-- C8 (amended): a stick's stored rest length equals the Euclidean
distance between its endpoints' positions at the moment of creation — hence
it is nonnegative, and positive exactly when those positions differ — and
no later operation (`toggle_lock`, `set_position`, a terminating
`simulate_frame`) ever changes the stick collection, so every stored rest
length (and endpoint pair) is immutable. -/
theorem c8_rest_length_amended :
    (∀ (s : Screen) (a b : Nat),
        (s.create_stick a b).sticks = s.sticks ++ [⟨a, b, dist2 (posOf s a) (posOf s b)⟩] ∧
        0 ≤ dist2 (posOf s a) (posOf s b) ∧
        (posOf s a ≠ posOf s b → 0 < dist2 (posOf s a) (posOf s b))) ∧
    (∀ (s : Screen) (i : Nat), (s.toggle_lock i).sticks = s.sticks) ∧
    (∀ (s : Screen) (i : Nat) (pos : ℝ × ℝ), (s.set_position i pos).sticks = s.sticks) ∧
    (∀ (fuel : Nat) (s s' : Screen) (f : Bool),
        s.simulate_frame fuel = some (s', f) → s'.sticks = s.sticks) := by
  refine ⟨fun s a b => ⟨rfl, dist2_nonneg _ _, fun h => dist2_pos_of_ne h⟩,
    fun s i => rfl, fun s i pos => rfl, fun fuel s s' f h => ?_⟩
  exact (simulate_frame_solverStep fuel s s' f h).1

/-- C8 witness: on the single-stick skeleton the two endpoint positions
differ, so the created rest length would be positive, and the concrete
terminating `simulate_frame` run leaves the stick collection unchanged. -/
theorem c8_rest_length_witness :
    (0 < dist2 (posOf (embedScreen zA) 0) (posOf (embedScreen zA) 1)) ∧
    (embedScreen zA1).sticks = (embedScreen zA).sticks := by
  constructor
  · refine (c8_rest_length_amended.1 (embedScreen zA) 0 1).2.2 ?_
    rw [embed_posOf, embed_posOf]
    intro hcon
    have h1 := congrArg Prod.fst hcon
    simp only [Int.cast_inj] at h1
    exact absurd h1 (by decide)
  · exact c8_rest_length_amended.2.2.2 5 (embedScreen zA) (embedScreen zA1) false embed_zA_run

/-!
## Concrete runs for the remaining claims
-/

/-- Two anchors competing for one joint: `p0 (20,0)` locked, `p1 (50,0)`
free, `p2 (100,0)` locked, sticks `p0–p1` (rest 50, currently stretched to
30) and `p1–p2` (rest 50, satisfied). -/
def zC1 : ZScreen :=
  ⟨[⟨20, true, 20⟩, ⟨50, false, 50⟩, ⟨100, true, 100⟩],
   [⟨0, 1, 50⟩, ⟨1, 2, 50⟩]⟩

theorem zC1_run : zSimulateFrame 10 zC1 = some (zC1, false) := by decide

theorem embed_zC1_run :
    (embedScreen zC1).simulate_frame 10 = some (embedScreen zC1, false) := by
  rw [embed_simulate_frame, zC1_run]
  rfl

/-- C1 counterexample: on the two-anchor skeleton the `Resolve` call
terminates with no degenerate division, stick 0 has exactly one locked
endpoint, yet afterwards the distance between its endpoints is 30, which
differs from its rest length 50 by far more than ε. -/
theorem c1_length_preservation_counterexample :
    (embedScreen zC1).simulate_frame 10 = some (embedScreen zC1, false) ∧
    isLockedAt (embedScreen zC1) 0 = true ∧
    isLockedAt (embedScreen zC1) 1 = false ∧
    (embedScreen zC1).sticks[0]? = some ⟨0, 1, (50 : ℝ)⟩ ∧
    dist2 (posOf (embedScreen zC1) 0) (posOf (embedScreen zC1) 1) = 30 ∧
    ¬ |dist2 (posOf (embedScreen zC1) 0) (posOf (embedScreen zC1) 1) - 50| < 1 / 1000000 := by
  refine ⟨embed_zC1_run, by rw [embed_isLockedAt]; decide, by rw [embed_isLockedAt]; decide,
    ?_, ?_, ?_⟩
  · show some (embedStick ⟨0, 1, 50⟩) = _
    rw [embedStick]
    norm_num
  · rw [embed_posOf, embed_posOf, dist2_cast,
      show |zposOf zC1 0 - zposOf zC1 1| = (30 : ℤ) from by decide]
    norm_num
  · rw [embed_posOf, embed_posOf, dist2_cast,
      show |zposOf zC1 0 - zposOf zC1 1| = (30 : ℤ) from by decide]
    norm_num

/-- An anchored chain whose second stick has two unlocked endpoints:
`p0 (20,0)` locked, `p1 (50,0)`, `p2 (110,0)`; sticks `p0–p1` (rest 50),
`p1–p2` (rest 60). -/
def zC6 : ZScreen :=
  ⟨[⟨20, true, 20⟩, ⟨50, false, 50⟩, ⟨110, false, 110⟩],
   [⟨0, 1, 50⟩, ⟨1, 2, 60⟩]⟩

/-- The same skeleton after `Resolve`: `p1` moved to `(70,0)` and `p2` to
`(130,0)`. -/
def zC61 : ZScreen :=
  ⟨[⟨20, true, 20⟩, ⟨70, false, 50⟩, ⟨130, false, 110⟩],
   [⟨0, 1, 50⟩, ⟨1, 2, 60⟩]⟩

theorem zC6_run : zSimulateFrame 10 zC6 = some (zC61, false) := by decide

theorem embed_zC6_run :
    (embedScreen zC6).simulate_frame 10 = some (embedScreen zC61, false) := by
  rw [embed_simulate_frame, zC6_run]
  rfl

/-- C6 counterexample: stick 1 has *neither* endpoint locked, yet `Resolve`
moves both of its endpoints (propagation reaches them from the anchor of
stick 0). -/
theorem c6_inert_free_counterexample :
    (embedScreen zC6).simulate_frame 10 = some (embedScreen zC61, false) ∧
    (embedScreen zC6).sticks[1]? = some ⟨1, 2, (60 : ℝ)⟩ ∧
    isLockedAt (embedScreen zC6) 1 = false ∧
    isLockedAt (embedScreen zC6) 2 = false ∧
    posOf (embedScreen zC61) 1 ≠ posOf (embedScreen zC6) 1 ∧
    posOf (embedScreen zC61) 2 ≠ posOf (embedScreen zC6) 2 := by
  refine ⟨embed_zC6_run, ?_, by rw [embed_isLockedAt]; decide, by rw [embed_isLockedAt]; decide,
    ?_, ?_⟩
  · show some (embedStick ⟨1, 2, 60⟩) = _
    rw [embedStick]
    norm_num
  · rw [embed_posOf, embed_posOf]
    intro hcon
    have h1 := congrArg Prod.fst hcon
    simp only [Int.cast_inj] at h1
    exact absurd h1 (by decide)
  · rw [embed_posOf, embed_posOf]
    intro hcon
    have h1 := congrArg Prod.fst hcon
    simp only [Int.cast_inj] at h1
    exact absurd h1 (by decide)

/-- A skeleton on which the sweep map has period 4, so the 10-sweep
`Resolve` is not idempotent: points `x = 5, 7, −3, 2` (only point 3
locked), sticks `p2–p1` (rest 3), `p0–p1` (rest 7), `p1–p0` (rest 1),
`p3–p2` (rest 4). -/
def zC7 : ZScreen :=
  ⟨[⟨5, false, 5⟩, ⟨7, false, 7⟩, ⟨-3, false, -3⟩, ⟨2, true, 2⟩],
   [⟨2, 1, 3⟩, ⟨0, 1, 7⟩, ⟨1, 0, 1⟩, ⟨3, 2, 4⟩]⟩

/-- `zC7` after one `Resolve` call (10 sweeps). -/
def zC7a : ZScreen :=
  ⟨[⟨2, false, 5⟩, ⟨3, false, 7⟩, ⟨6, false, -3⟩, ⟨2, true, 2⟩],
   [⟨2, 1, 3⟩, ⟨0, 1, 7⟩, ⟨1, 0, 1⟩, ⟨3, 2, 4⟩]⟩

/-- `zC7` after two `Resolve` calls (20 sweeps). -/
def zC7b : ZScreen :=
  ⟨[⟨2, false, 5⟩, ⟨1, false, 7⟩, ⟨-2, false, -3⟩, ⟨2, true, 2⟩],
   [⟨2, 1, 3⟩, ⟨0, 1, 7⟩, ⟨1, 0, 1⟩, ⟨3, 2, 4⟩]⟩

theorem zC7_run1 : zSimulateFrame 12 zC7 = some (zC7a, false) := by decide

theorem zC7_run2 : zSimulateFrame 12 zC7a = some (zC7b, false) := by decide

/-- C7 counterexample: both `Resolve` calls terminate with no degenerate
division, yet the second call moves points again — the result of the first
call is not a fixed point of the solver. -/
theorem c7_idempotence_counterexample :
    (embedScreen zC7).simulate_frame 12 = some (embedScreen zC7a, false) ∧
    (embedScreen zC7a).simulate_frame 12 = some (embedScreen zC7b, false) ∧
    posOf (embedScreen zC7b) 1 ≠ posOf (embedScreen zC7a) 1 := by
  refine ⟨?_, ?_, ?_⟩
  · rw [embed_simulate_frame, zC7_run1]
    rfl
  · rw [embed_simulate_frame, zC7_run2]
    rfl
  · rw [embed_posOf, embed_posOf]
    intro hcon
    have h1 := congrArg Prod.fst hcon
    simp only [Int.cast_inj] at h1
    exact absurd h1 (by decide)

/-- C7 (amended): when the state reached by the first `Resolve` call is a
fixed point of a single sweep — as happens once the constraints are
satisfiable and have converged — a second call returns exactly the same
state: converged states are fixed points of the solver.  (In general the
second call can move points again; see the counterexample.) -/
theorem c7_idempotence_amended (fuel : Nat) (s t : Screen) (f g : Bool)
    (h1 : s.simulate_frame fuel = some (t, f)) (h2 : sweep fuel t = some (t, g)) :
    ∃ g' : Bool, t.simulate_frame fuel = some (t, g') := by
  have key : ∀ n : Nat, ∃ g' : Bool, iterateSweeps fuel n t = some (t, g') := by
    intro n
    induction n with
    | zero => exact ⟨false, rfl⟩
    | succ n ih =>
      obtain ⟨g', ih⟩ := ih
      refine ⟨g || g', ?_⟩
      rw [iterateSweeps, h2]
      simp only []
      rw [ih]
  exact key STICK_ITERATIONS

theorem zA1_sweep_fixed : zSweep 5 zA1 = some (zA1, false) := by decide

theorem embed_zA1_sweep_fixed :
    sweep 5 (embedScreen zA1) = some (embedScreen zA1, false) := by
  rw [embed_sweep, zA1_sweep_fixed]
  rfl

/-- C7 witness: the single-stick skeleton converges after the first call,
and a second call returns exactly the same state. -/
theorem c7_idempotence_amended_witness :
    ∃ g' : Bool, (embedScreen zA1).simulate_frame 5 = some (embedScreen zA1, g') :=
  c7_idempotence_amended 5 (embedScreen zA) (embedScreen zA1) false false
    embed_zA_run embed_zA1_sweep_fixed

/-!
## Non-termination on an anchor-reachable cycle (C5)

In `zCyc` the anchor `p0` is locked and stick 3 connects it to the triangle
`p1–p2–p3` (sticks 0, 1, 2).  Once the walk enters the triangle it cycles
`stick 0 → stick 1 → stick 2 → stick 0 → ...` forever: the `excluding`
parameter only prevents immediate backtracking, and the first incident
stick found at each joint is always the next triangle stick.  The control
flow of `calculate_joint` never consults positions, so the non-termination
lemma below holds for arbitrary point positions.
-/

/-- An anchor-reachable cycle of sticks: locked `p0 (−1,0)` tied by stick 3
to the collinear "triangle" `p1 (0,0) – p2 (1,0) – p3 (2,0)` (sticks 0, 1,
2, all exactly satisfied, so every snap leaves the state unchanged). -/
def zCyc : ZScreen :=
  ⟨[⟨-1, true, -1⟩, ⟨0, false, 0⟩, ⟨1, false, 1⟩, ⟨2, false, 2⟩],
   [⟨1, 2, 1⟩, ⟨2, 3, 1⟩, ⟨3, 1, 2⟩, ⟨0, 1, 1⟩]⟩

theorem cyc_step0 (n : Nat) :
    zCalculateJoint (n + 1) zCyc 0 .B
      = match zCalculateJoint n zCyc 1 .B with
        | none => none
        | some (s, f) => some (s, false || f) := rfl

theorem cyc_step1 (n : Nat) :
    zCalculateJoint (n + 1) zCyc 1 .B
      = match zCalculateJoint n zCyc 2 .B with
        | none => none
        | some (s, f) => some (s, false || f) := rfl

theorem cyc_step2 (n : Nat) :
    zCalculateJoint (n + 1) zCyc 2 .B
      = match zCalculateJoint n zCyc 0 .B with
        | none => none
        | some (s, f) => some (s, false || f) := rfl

theorem cyc_step3 (n : Nat) :
    zCalculateJoint (n + 1) zCyc 3 .B
      = match zCalculateJoint n zCyc 0 .B with
        | none => none
        | some (s, f) => some (s, false || f) := rfl

theorem cyc_triangle_none (n : Nat) :
    zCalculateJoint n zCyc 0 .B = none ∧ zCalculateJoint n zCyc 1 .B = none ∧
      zCalculateJoint n zCyc 2 .B = none := by
  induction n with
  | zero => exact ⟨rfl, rfl, rfl⟩
  | succ n ih =>
    refine ⟨?_, ?_, ?_⟩
    · rw [cyc_step0 n, ih.2.1]
    · rw [cyc_step1 n, ih.2.2]
    · rw [cyc_step2 n, ih.1]

theorem cyc_entry_none (fuel : Nat) : zCalculateJoint fuel zCyc 3 .B = none := by
  cases fuel with
  | zero => rfl
  | succ n => rw [cyc_step3 n, (cyc_triangle_none n).1]

theorem zSweep_cyc_none (fuel : Nat) : zSweep fuel zCyc = none := by
  show (match zCalculateJoint fuel zCyc 3 .B with
    | none => none
    | some (s', f) =>
      match zSweepFrom fuel s' [] with
      | none => none
      | some (s'', f') => some (s'', f || f')) = none
  rw [cyc_entry_none fuel]

theorem zSimulateFrame_cyc_none (fuel : Nat) : zSimulateFrame fuel zCyc = none := by
  show (match zSweep fuel zCyc with
    | none => none
    | some (s', f) =>
      match zIterateSweeps fuel 9 s' with
      | none => none
      | some (s'', f') => some (s'', f || f')) = none
  rw [zSweep_cyc_none]

/-- C5 counterexample: on the anchor-reachable cycle `zCyc`, `Resolve`
never terminates — no amount of fuel makes `simulate_frame` return. -/
theorem c5_termination_counterexample :
    ¬ ∃ (fuel : Nat) (s' : Screen) (f : Bool),
        (embedScreen zCyc).simulate_frame fuel = some (s', f) := by
  rintro ⟨fuel, s', f, h⟩
  rw [embed_simulate_frame, zSimulateFrame_cyc_none fuel] at h
  exact Option.noConfusion h

/-!
## Length preservation for a lone-jointed stick (C1 amended)

The constraint step `snapPos` puts the joint at exactly the rest length
from the anchor.  When the stick's free joint lies on no other stick, no
later propagation step can move it except a re-snap from the same anchor,
so the exact length survives to the end of the `Resolve` call.
-/

theorem dist2_comm (p q : ℝ × ℝ) : dist2 p q = dist2 q p := by
  rw [dist2, dist2]
  ring_nf

/-- The geometric heart of the solver: a snap puts the joint at distance
`|len|` from the anchor, provided the direction was well defined. -/
theorem dist2_snapPos (p q : ℝ × ℝ) (len : ℝ) (hd : dist2 p q ≠ 0) :
    dist2 (snapPos p q len) q = |len| := by
  have hd0 : 0 ≤ dist2 p q := Real.sqrt_nonneg _
  have hdpos : 0 < dist2 p q := lt_of_le_of_ne hd0 (Ne.symm hd)
  have hsq : dist2 p q ^ 2 = (p.1 - q.1) ^ 2 + (p.2 - q.2) ^ 2 := by
    rw [dist2]
    rw [Real.sq_sqrt (by positivity)]
  rw [snapPos, dist2]
  have e1 : (q.1 + (p.1 - q.1) / dist2 p q * len, q.2 + (p.2 - q.2) / dist2 p q * len).1
      - q.1 = (p.1 - q.1) / dist2 p q * len := by ring
  have e2 : (q.1 + (p.1 - q.1) / dist2 p q * len, q.2 + (p.2 - q.2) / dist2 p q * len).2
      - q.2 = (p.2 - q.2) / dist2 p q * len := by ring
  rw [e1, e2]
  have e3 : ((p.1 - q.1) / dist2 p q * len) ^ 2 + ((p.2 - q.2) / dist2 p q * len) ^ 2
      = ((p.1 - q.1) ^ 2 + (p.2 - q.2) ^ 2) * (len / dist2 p q) ^ 2 := by
    field_simp
    ring
  rw [e3, ← hsq, Real.sqrt_mul (by positivity), Real.sqrt_sq_eq_abs, Real.sqrt_sq_eq_abs,
    abs_div, abs_of_pos hdpos, mul_comm, div_mul_cancel₀ _ hd]

/-- The static facts about a "lone-jointed" stick: stick `m` joins anchor
`a` (locked) to joint `j` (free), `j` is in range, and no *other* stick
touches `j`. -/
def LoneStick (s : Screen) (m a j : Nat) (len : ℝ) : Prop :=
  (s.sticks[m]? = some ⟨a, j, len⟩ ∨ s.sticks[m]? = some ⟨j, a, len⟩) ∧
  isLockedAt s a = true ∧ isLockedAt s j = false ∧
  j < s.points.length ∧
  ∀ (k : Nat) (st : Stick), s.sticks[k]? = some st → k ≠ m →
    st.pointA ≠ j ∧ st.pointB ≠ j

/-- The constraint of the lone stick is exactly satisfied in `s`. -/
def SatAt (s : Screen) (a j : Nat) (len : ℝ) : Prop :=
  dist2 (posOf s j) (posOf s a) = len

theorem solverStep_isLockedAt {s s' : Screen} (h : SolverStep s s') (i : Nat) :
    isLockedAt s' i = isLockedAt s i := by
  obtain ⟨-, hlen, hp⟩ := h
  rw [isLockedAt, isLockedAt]
  cases hpi : s.points[i]? with
  | none =>
    have h1 : s'.points[i]? = none := by
      rw [List.getElem?_eq_none_iff] at hpi ⊢
      omega
    rw [h1]
  | some p =>
    obtain ⟨p', hp', hlk, -, -⟩ := hp i p hpi
    rw [hp']
    exact hlk

theorem solverStep_loneStick {s s' : Screen} (h : SolverStep s s') {m a j : Nat} {len : ℝ}
    (hl : LoneStick s m a j len) : LoneStick s' m a j len := by
  obtain ⟨h1, h2, h3, h4, h5⟩ := hl
  exact ⟨by rw [h.1]; exact h1, by rw [solverStep_isLockedAt h]; exact h2,
    by rw [solverStep_isLockedAt h]; exact h3, by rw [h.2.1]; exact h4,
    fun k st hst hk => h5 k st (by rw [← h.1]; exact hst) hk⟩

theorem lone_a_ne_j {s : Screen} {m a j : Nat} {len : ℝ} (hl : LoneStick s m a j len) :
    a ≠ j := by
  intro hcon
  have h2 := hl.2.1
  have h3 := hl.2.2.1
  rw [hcon] at h2
  rw [h2] at h3
  exact Bool.noConfusion h3

theorem posOf_set_ne (s : Screen) (i : Nat) (q : Point) (x : Nat) (hne : i ≠ x) :
    posOf { s with points := s.points.set i q } x = posOf s x := by
  rw [posOf, posOf,
    show ({ s with points := s.points.set i q } : Screen).points = s.points.set i q from rfl,
    List.getElem?_set_ne hne]

theorem posOf_set_self (s : Screen) (i : Nat) (q : Point) (hi : i < s.points.length) :
    posOf { s with points := s.points.set i q } i = q.position := by
  rw [posOf,
    show ({ s with points := s.points.set i q } : Screen).points = s.points.set i q from rfl,
    List.getElem?_set_self hi]

/-- Any `calculate_joint` call preserves exact satisfaction of a
lone-jointed stick: the only writes that can touch its joint come from the
stick itself, and such a re-snap puts the joint back at distance `len`
(well-defined because the current distance *is* `len > 0`). -/
theorem calculate_joint_preserves_sat (fuel : Nat) :
    ∀ (s : Screen) (c : Nat) (l : Letter) (s' : Screen) (f : Bool) (m a j : Nat) (len : ℝ),
      calculate_joint fuel s c l = some (s', f) →
      LoneStick s m a j len → 0 < len → SatAt s a j len → SatAt s' a j len := by
  induction fuel with
  | zero => intro s c l s' f m a j len h _ _ _; exact Option.noConfusion h
  | succ fuel ih =>
    intro s c l s' f m a j len h hlone hpos hsat
    rw [calculate_joint] at h
    split at h
    · cases h; exact hsat
    · rename_i st hst
      split at h
      · cases h; exact hsat
      · rename_i jp hjp
        split at h
        · cases h; exact hsat
        · rename_i hl
          simp only [] at h
          have hlf : jp.locked = false := by revert hl; cases jp.locked <;> simp
          have hstep : SolverStep s
              { s with
                points := s.points.set (st.jointIdx l)
                  { jp with
                    position := snapPos jp.position (posOf s (st.prevIdx l)) st.length } } :=
            solverStep_set s (st.jointIdx l) jp _ hjp hlf
          have hja : st.jointIdx l ≠ a := by
            intro hja
            have h2 := hlone.2.1
            rw [isLockedAt] at h2
            rw [hja] at hjp
            rw [hjp] at h2
            exact hl (by exact h2)
          have key : SatAt
              { s with
                points := s.points.set (st.jointIdx l)
                  { jp with
                    position := snapPos jp.position (posOf s (st.prevIdx l)) st.length } }
              a j len := by
            by_cases hjj : st.jointIdx l = j
            · -- a re-snap of the lone joint from its own anchor
              have hcm : c = m := by
                by_contra hcm
                obtain ⟨hA, hB⟩ := hlone.2.2.2.2 c st hst hcm
                cases l with
                | A => exact hA hjj
                | B => exact hB hjj
              subst hcm
              have hjpj : s.points[j]? = some jp := by rw [← hjj]; exact hjp
              have hjppos : jp.position = posOf s j := by rw [posOf, hjpj]
              have hd : dist2 jp.position (posOf s a) = len := by
                rw [hjppos]
                exact hsat
              have hprev : st.prevIdx l = a ∧ st.length = len := by
                rcases hlone.1 with horient | horient
                · have hst' : st = ⟨a, j, len⟩ := by
                    rw [hst] at horient
                    exact Option.some.inj horient
                  subst hst'
                  cases l with
                  | A => exact absurd hjj (lone_a_ne_j hlone)
                  | B => exact ⟨rfl, rfl⟩
                · have hst' : st = ⟨j, a, len⟩ := by
                    rw [hst] at horient
                    exact Option.some.inj horient
                  subst hst'
                  cases l with
                  | A => exact ⟨rfl, rfl⟩
                  | B => exact absurd (show a = j from hjj) (lone_a_ne_j hlone)
              rw [SatAt, posOf_set_ne _ _ _ a hja, ← hjj,
                posOf_set_self _ _ _ (by rw [hjj]; exact hlone.2.2.2.1)]
              show dist2 (snapPos jp.position (posOf s (st.prevIdx l)) st.length)
                (posOf s a) = len
              rw [hprev.1, hprev.2, dist2_snapPos _ _ _ (by rw [hd]; exact ne_of_gt hpos),
                abs_of_pos hpos]
            · -- a write to an unrelated joint
              rw [SatAt, posOf_set_ne _ _ _ j hjj, posOf_set_ne _ _ _ a hja]
              exact hsat
          split at h
          · cases h
            exact key
          · rename_i k l' hni
            split at h
            · exact Option.noConfusion h
            · rename_i s2 f2 hrec
              cases h
              exact ih _ k l' _ _ m a j len hrec (solverStep_loneStick hstep hlone) hpos key

/-- The `calculate_joint` call that the sweep dispatches *on the lone stick
itself* establishes exact satisfaction, provided no degenerate division
occurred (flag `false`): the very first snap puts the joint at distance
`len` from the anchor, and the rest of the call tree preserves it. -/
theorem calculate_joint_establishes (fuel : Nat) (s : Screen) (c : Nat) (l : Letter)
    (s' : Screen) (m a j : Nat) (len : ℝ) (st : Stick)
    (h : calculate_joint fuel s c l = some (s', false))
    (hlone : LoneStick s m a j len) (hpos : 0 < len)
    (hst : s.sticks[c]? = some st)
    (hjl : st.jointIdx l = j) (hpl : st.prevIdx l = a) (hll : st.length = len) :
    SatAt s' a j len := by
  cases fuel with
  | zero => exact Option.noConfusion h
  | succ fuel =>
    rw [calculate_joint, hst] at h
    try simp only [] at h
    have hjq : s.points[st.jointIdx l]? = some (s.points.get ⟨j, hlone.2.2.2.1⟩) := by
      rw [hjl]
      exact List.getElem?_eq_getElem hlone.2.2.2.1
    rw [hjq] at h
    try simp only [] at h
    have hlkj : (s.points.get ⟨j, hlone.2.2.2.1⟩).locked = false := by
      have h3 := hlone.2.2.1
      rw [isLockedAt, List.getElem?_eq_getElem hlone.2.2.2.1] at h3
      exact h3
    rw [if_neg (by rw [hlkj]; simp)] at h
    try simp only [] at h
    have hjppos : (s.points.get ⟨j, hlone.2.2.2.1⟩).position = posOf s j := by
      rw [posOf, List.getElem?_eq_getElem hlone.2.2.2.1]
      rfl
    have hsat1 : ∀ hdeg : degenAt (s.points.get ⟨j, hlone.2.2.2.1⟩).position
        (posOf s (st.prevIdx l)) = false,
        SatAt { s with
          points := s.points.set (st.jointIdx l)
            { s.points.get ⟨j, hlone.2.2.2.1⟩ with
              position := snapPos (s.points.get ⟨j, hlone.2.2.2.1⟩).position
                (posOf s (st.prevIdx l)) st.length } } a j len := by
      intro hdeg
      have hja : j ≠ a := fun hcon => lone_a_ne_j hlone hcon.symm
      have hdne : dist2 (s.points.get ⟨j, hlone.2.2.2.1⟩).position (posOf s (st.prevIdx l)) ≠ 0 := by
        intro hcon
        rw [degenAt, hcon] at hdeg
        simp at hdeg
      rw [hpl] at hdne
      rw [SatAt, hjl, posOf_set_ne _ _ _ a hja, posOf_set_self _ _ _ hlone.2.2.2.1]
      show dist2 (snapPos (s.points.get ⟨j, hlone.2.2.2.1⟩).position
        (posOf s (st.prevIdx l)) st.length) (posOf s a) = len
      rw [hpl, hll, dist2_snapPos _ _ _ hdne, abs_of_pos hpos]
    split at h
    · rename_i hni
      have h12 := Option.some.inj h
      have hs := congrArg Prod.fst h12
      have hf := congrArg Prod.snd h12
      simp only [] at hs hf
      rw [← hs]
      exact hsat1 hf
    · rename_i k l' hni
      split at h
      · exact Option.noConfusion h
      · rename_i s2 f2 hrec
        have h12 := Option.some.inj h
        have hs := congrArg Prod.fst h12
        have hf := congrArg Prod.snd h12
        simp only [] at hs hf
        rw [Bool.or_eq_false_iff] at hf
        have hstep : SolverStep s _ := solverStep_set s (st.jointIdx l)
          (s.points.get ⟨j, hlone.2.2.2.1⟩)
          (snapPos (s.points.get ⟨j, hlone.2.2.2.1⟩).position (posOf s (st.prevIdx l)) st.length)
          (by rw [hjl]; exact List.getElem?_eq_getElem hlone.2.2.2.1) hlkj
        rw [← hs]
        exact calculate_joint_preserves_sat fuel _ k l' s2 f2 m a j len hrec
          (solverStep_loneStick hstep hlone) hpos (hsat1 hf.1)

/-- One sweep pass over indices `ks` keeps a satisfied lone stick
satisfied, and establishes satisfaction whenever `ks` contains the lone
stick's index (as the full sweep always does), provided the sweep's
degenerate flag is `false`. -/
theorem sweepFrom_sat (fuel : Nat) :
    ∀ (ks : List Nat) (s s' : Screen) (m a j : Nat) (len : ℝ),
      sweepFrom fuel s ks = some (s', false) →
      LoneStick s m a j len → 0 < len →
      (SatAt s a j len ∨ m ∈ ks) → SatAt s' a j len := by
  intro ks
  induction ks with
  | nil =>
    intro s s' m a j len h hlone hpos hd
    rw [sweepFrom] at h
    cases h
    rcases hd with hsat | hmem
    · exact hsat
    · exact absurd hmem (by simp)
  | cons k ks ih =>
    intro s s' m a j len h hlone hpos hd
    have hmemnext : m ≠ k → (SatAt s a j len ∨ m ∈ ks) := by
      intro hmk
      rcases hd with hsat | hmem
      · exact Or.inl hsat
      · rcases List.mem_cons.mp hmem with hc | hc
        · exact absurd hc hmk
        · exact Or.inr hc
    rw [sweepFrom] at h
    split at h
    · rename_i hstk
      refine ih s s' m a j len h hlone hpos (hmemnext ?_)
      intro hcon
      rw [← hcon] at hstk
      rcases hlone.1 with horient | horient <;> rw [horient] at hstk <;>
        exact Option.noConfusion hstk
    · rename_i st hstk
      split at h
      · rename_i hlockA
        split at h
        · exact Option.noConfusion h
        · rename_i s1 f1 hcall
          split at h
          · exact Option.noConfusion h
          · rename_i s2 f2 hrest
            have h12 := Option.some.inj h
            have hs := congrArg Prod.fst h12
            have hf := congrArg Prod.snd h12
            simp only [] at hs hf
            rw [Bool.or_eq_false_iff] at hf
            have hstep := calculate_joint_solverStep fuel s k .B s1 f1 (by rw [hcall, hf.1])
            have hlone1 := solverStep_loneStick hstep hlone
            by_cases hkm : k = m
            · subst hkm
              have hsat1 : SatAt s1 a j len := by
                rcases hlone.1 with horient | horient
                · have hst' : st = ⟨a, j, len⟩ := by
                    rw [hstk] at horient
                    exact Option.some.inj horient
                  subst hst'
                  exact calculate_joint_establishes fuel s k .B s1 k a j len _
                    (by rw [hcall, hf.1]) hlone hpos hstk rfl rfl rfl
                · have hst' : st = ⟨j, a, len⟩ := by
                    rw [hstk] at horient
                    exact Option.some.inj horient
                  subst hst'
                  exfalso
                  have h3 := hlone.2.2.1
                  rw [show ((⟨j, a, len⟩ : Stick)).pointA = j from rfl] at hlockA
                  rw [hlockA] at h3
                  exact Bool.noConfusion h3
              rw [← hs]
              exact ih s1 s2 k a j len (by rw [hrest, hf.2]) hlone1 hpos (Or.inl hsat1)
            · have hnext := hmemnext (fun hcon => hkm hcon.symm)
              rcases hnext with hsat | hmem
              · have hsat1 := calculate_joint_preserves_sat fuel s k .B s1 f1 m a j len
                  (by rw [hcall, hf.1]) hlone hpos hsat
                rw [← hs]
                exact ih s1 s2 m a j len (by rw [hrest, hf.2]) hlone1 hpos (Or.inl hsat1)
              · rw [← hs]
                exact ih s1 s2 m a j len (by rw [hrest, hf.2]) hlone1 hpos (Or.inr hmem)
      · rename_i hlockA
        split at h
        · rename_i hlockB
          split at h
          · exact Option.noConfusion h
          · rename_i s1 f1 hcall
            split at h
            · exact Option.noConfusion h
            · rename_i s2 f2 hrest
              have h12 := Option.some.inj h
              have hs := congrArg Prod.fst h12
              have hf := congrArg Prod.snd h12
              simp only [] at hs hf
              rw [Bool.or_eq_false_iff] at hf
              have hstep := calculate_joint_solverStep fuel s k .A s1 f1 (by rw [hcall, hf.1])
              have hlone1 := solverStep_loneStick hstep hlone
              by_cases hkm : k = m
              · subst hkm
                have hsat1 : SatAt s1 a j len := by
                  rcases hlone.1 with horient | horient
                  · have hst' : st = ⟨a, j, len⟩ := by
                      rw [hstk] at horient
                      exact Option.some.inj horient
                    subst hst'
                    exfalso
                    have h2 := hlone.2.1
                    rw [show ((⟨a, j, len⟩ : Stick)).pointA = a from rfl] at hlockA
                    rw [h2] at hlockA
                    exact hlockA rfl
                  · have hst' : st = ⟨j, a, len⟩ := by
                      rw [hstk] at horient
                      exact Option.some.inj horient
                    subst hst'
                    exact calculate_joint_establishes fuel s k .A s1 k a j len _
                      (by rw [hcall, hf.1]) hlone hpos hstk rfl rfl rfl
                rw [← hs]
                exact ih s1 s2 k a j len (by rw [hrest, hf.2]) hlone1 hpos (Or.inl hsat1)
              · have hnext := hmemnext (fun hcon => hkm hcon.symm)
                rcases hnext with hsat | hmem
                · have hsat1 := calculate_joint_preserves_sat fuel s k .A s1 f1 m a j len
                    (by rw [hcall, hf.1]) hlone hpos hsat
                  rw [← hs]
                  exact ih s1 s2 m a j len (by rw [hrest, hf.2]) hlone1 hpos (Or.inl hsat1)
                · rw [← hs]
                  exact ih s1 s2 m a j len (by rw [hrest, hf.2]) hlone1 hpos (Or.inr hmem)
        · rename_i hlockB
          refine ih s s' m a j len h hlone hpos (hmemnext ?_)
          intro hcon
          rw [← hcon] at hstk
          rcases hlone.1 with horient | horient
          · have hst' : st = ⟨a, j, len⟩ := by
              rw [hstk] at horient
              exact Option.some.inj horient
            subst hst'
            have h2 := hlone.2.1
            rw [show ((⟨a, j, len⟩ : Stick)).pointA = a from rfl] at hlockA
            rw [h2] at hlockA
            exact hlockA rfl
          · have hst' : st = ⟨j, a, len⟩ := by
              rw [hstk] at horient
              exact Option.some.inj horient
            subst hst'
            have h2 := hlone.2.1
            rw [show ((⟨j, a, len⟩ : Stick)).pointB = a from rfl] at hlockB
            rw [h2] at hlockB
            exact hlockB rfl

/-- Any positive number of sweep iterations (with degenerate flag `false`)
leaves a lone stick exactly satisfied: the last sweep establishes it. -/
theorem iterateSweeps_sat (n : Nat) :
    ∀ (fuel : Nat) (s s' : Screen) (m a j : Nat) (len : ℝ),
      iterateSweeps fuel (n + 1) s = some (s', false) →
      LoneStick s m a j len → 0 < len → SatAt s' a j len := by
  induction n with
  | zero =>
    intro fuel s s' m a j len h hlone hpos
    rw [iterateSweeps] at h
    split at h
    · exact Option.noConfusion h
    · rename_i s1 f1 hsw
      split at h
      · exact Option.noConfusion h
      · rename_i s2 f2 hit
        have h12 := Option.some.inj h
        have hs := congrArg Prod.fst h12
        have hf := congrArg Prod.snd h12
        simp only [] at hs hf
        rw [Bool.or_eq_false_iff] at hf
        rw [iterateSweeps] at hit
        have h12' := Option.some.inj hit
        have hs' := congrArg Prod.fst h12'
        simp only [] at hs'
        have hm : m < s.sticks.length := by
          rcases hlone.1 with horient | horient <;>
            exact (List.getElem?_eq_some.mp horient).1
        rw [← hs, ← hs']
        exact sweepFrom_sat fuel (List.range s.sticks.length) s s1 m a j len
          (by show sweep fuel s = some (s1, false); rw [hsw, hf.1]) hlone hpos
          (Or.inr (List.mem_range.mpr hm))
  | succ n ih =>
    intro fuel s s' m a j len h hlone hpos
    rw [iterateSweeps] at h
    split at h
    · exact Option.noConfusion h
    · rename_i s1 f1 hsw
      split at h
      · exact Option.noConfusion h
      · rename_i s2 f2 hit
        have h12 := Option.some.inj h
        have hs := congrArg Prod.fst h12
        have hf := congrArg Prod.snd h12
        simp only [] at hs hf
        rw [Bool.or_eq_false_iff] at hf
        have hstep := sweepFrom_solverStep fuel (List.range s.sticks.length) s s1 f1 hsw
        rw [← hs]
        exact ih fuel s1 s2 m a j len (by rw [hit, hf.2])
          (solverStep_loneStick hstep hlone) hpos

/-- C1 (amended): for every stick with exactly one locked endpoint, positive
rest length, and a free endpoint lying on no other stick, a terminating
`Resolve` call in which no degenerate division occurred leaves the distance
between its endpoints *exactly* equal to the rest length (in particular
within any ε).  The counterexample shows the extra "free endpoint lies on
no other stick" condition is necessary: a later stick's propagation can
otherwise move the shared joint again. -/
theorem c1_length_preservation_amended (fuel : Nat) (s s' : Screen) (m a j : Nat) (len : ℝ)
    (h : s.simulate_frame fuel = some (s', false))
    (hlone : LoneStick s m a j len) (hpos : 0 < len) :
    dist2 (posOf s' j) (posOf s' a) = len ∧
    |dist2 (posOf s' j) (posOf s' a) - len| < 1 / 1000000 := by
  have hsat : SatAt s' a j len :=
    iterateSweeps_sat 9 fuel s s' m a j len h hlone hpos
  exact ⟨hsat, by rw [hsat]; norm_num⟩

theorem lone_zA : LoneStick (embedScreen zA) 0 0 1 50 := by
  refine ⟨Or.inl ?_, by rw [embed_isLockedAt]; decide, by rw [embed_isLockedAt]; decide,
    by rw [show (embedScreen zA).points.length = 2 from rfl]; omega, ?_⟩
  · rw [show (embedScreen zA).sticks[0]? = some (embedStick ⟨0, 1, 50⟩) from rfl]
    rw [embedStick]
    norm_num
  · intro k st hst hk
    have hlen : (embedScreen zA).sticks.length = 1 := rfl
    rw [List.getElem?_eq_none (by omega)] at hst
    exact Option.noConfusion hst

/-- C1 witness: on the concrete single-stick run the final distance between
joint and anchor is exactly the rest length 50. -/
theorem c1_length_preservation_amended_witness :
    dist2 (posOf (embedScreen zA1) 1) (posOf (embedScreen zA1) 0) = 50 ∧
    |dist2 (posOf (embedScreen zA1) 1) (posOf (embedScreen zA1) 0) - 50| < 1 / 1000000 :=
  c1_length_preservation_amended 5 (embedScreen zA) (embedScreen zA1) 0 0 1 50
    embed_zA_run lone_zA (by norm_num)

/-!
## Connectivity: the solver only moves points connected to an anchor (C6)
-/

/-- Two point indices are adjacent when some stick has both as endpoints. -/
def sticksAdj (sticks : List Stick) (i j : Nat) : Prop :=
  ∃ st ∈ sticks, (st.pointA = i ∨ st.pointB = i) ∧ (st.pointA = j ∨ st.pointB = j)

/-- Connectivity through chains of sticks (positions play no role). -/
def ConnectedIn (sticks : List Stick) (i j : Nat) : Prop :=
  Relation.ReflTransGen (sticksAdj sticks) i j

theorem sticksAdj_symm (sticks : List Stick) {i j : Nat} (h : sticksAdj sticks i j) :
    sticksAdj sticks j i := by
  obtain ⟨st, hmem, hi, hj⟩ := h
  exact ⟨st, hmem, hj, hi⟩

theorem connectedIn_symm (sticks : List Stick) {i j : Nat} (h : ConnectedIn sticks i j) :
    ConnectedIn sticks j i := by
  induction h with
  | refl => exact Relation.ReflTransGen.refl
  | tail _ hadj ihc =>
    exact Relation.ReflTransGen.trans
      (Relation.ReflTransGen.single (sticksAdj_symm sticks hadj)) ihc

theorem nextIncidentAux_sound (c j : Nat) :
    ∀ (sticks : List Stick) (m k : Nat) (l' : Letter),
      nextIncidentAux c j sticks m = some (k, l') →
      m ≤ k ∧ k ≠ c ∧ ∃ st, sticks[k - m]? = some st ∧
        ((st.pointA = j ∧ l' = .B) ∨ (st.pointA ≠ j ∧ st.pointB = j ∧ l' = .A)) := by
  intro sticks
  induction sticks with
  | nil => intro m k l' h; exact Option.noConfusion h
  | cons st rest ih =>
    intro m k l' h
    rw [nextIncidentAux] at h
    split at h
    · rename_i hmc
      obtain ⟨hmk, hkc, st', hst', hd⟩ := ih (m + 1) k l' h
      refine ⟨by omega, hkc, st', ?_, hd⟩
      rw [show k - m = (k - (m + 1)) + 1 by omega, List.getElem?_cons_succ]
      exact hst'
    · rename_i hmc
      split at h
      · rename_i hA
        have h12 := Option.some.inj h
        have hk := congrArg Prod.fst h12
        have hle := congrArg Prod.snd h12
        simp only [] at hk hle
        subst hk
        refine ⟨le_refl m, hmc, st, ?_, Or.inl ⟨hA, hle.symm⟩⟩
        rw [Nat.sub_self]
        simp
      · rename_i hA
        split at h
        · rename_i hB
          have h12 := Option.some.inj h
          have hk := congrArg Prod.fst h12
          have hle := congrArg Prod.snd h12
          simp only [] at hk hle
          subst hk
          refine ⟨le_refl m, hmc, st, ?_, Or.inr ⟨hA, hB, hle.symm⟩⟩
          rw [Nat.sub_self]
          simp
        · rename_i hB
          obtain ⟨hmk, hkc, st', hst', hd⟩ := ih (m + 1) k l' h
          refine ⟨by omega, hkc, st', ?_, hd⟩
          rw [show k - m = (k - (m + 1)) + 1 by omega, List.getElem?_cons_succ]
          exact hst'

theorem nextIncident_sound {sticks : List Stick} {c j k : Nat} {l' : Letter}
    (h : nextIncident sticks c j = some (k, l')) :
    k ≠ c ∧ ∃ st, sticks[k]? = some st ∧
      ((st.pointA = j ∧ l' = .B) ∨ (st.pointA ≠ j ∧ st.pointB = j ∧ l' = .A)) := by
  obtain ⟨-, hkc, st, hst, hd⟩ := nextIncidentAux_sound c j sticks 0 k l' h
  rw [Nat.sub_zero] at hst
  exact ⟨hkc, st, hst, hd⟩

theorem mem_of_getElem? {α : Type} {l : List α} {k : Nat} {x : α} (h : l[k]? = some x) :
    x ∈ l := by
  obtain ⟨hlt, heq⟩ := List.getElem?_eq_some.mp h
  exact heq ▸ List.getElem_mem hlt

/-- Every point moved by a `calculate_joint` call is connected (through
sticks) to the joint of the stick the call started from. -/
theorem calculate_joint_moves (fuel : Nat) :
    ∀ (s : Screen) (c : Nat) (l : Letter) (s' : Screen) (f : Bool),
      calculate_joint fuel s c l = some (s', f) →
      ∀ i : Nat, posOf s' i ≠ posOf s i →
        ∃ st, s.sticks[c]? = some st ∧ ConnectedIn s.sticks (st.jointIdx l) i := by
  induction fuel with
  | zero => intro s c l s' f h; exact Option.noConfusion h
  | succ fuel ih =>
    intro s c l s' f h i0
    rw [calculate_joint] at h
    split at h
    · cases h; intro hi; exact absurd rfl hi
    · rename_i st hst
      split at h
      · cases h; intro hi; exact absurd rfl hi
      · rename_i jp hjp
        split at h
        · cases h; intro hi; exact absurd rfl hi
        · rename_i hl
          simp only [] at h
          intro hi
          split at h
          · rename_i hni
            cases h
            by_cases hij : st.jointIdx l = i0
            · exact ⟨st, hst, hij ▸ Relation.ReflTransGen.refl⟩
            · exact absurd (posOf_set_ne s (st.jointIdx l) _ i0 hij) hi
          · rename_i k l' hni
            split at h
            · exact Option.noConfusion h
            · rename_i s2 f2 hrec
              cases h
              by_cases hmid : posOf { s with
                  points := s.points.set (st.jointIdx l)
                    { jp with
                      position := snapPos jp.position (posOf s (st.prevIdx l)) st.length } }
                  i0 = posOf s i0
              · -- moved during the recursive continuation
                have hi1 : posOf s' i0 ≠ posOf { s with
                    points := s.points.set (st.jointIdx l)
                      { jp with
                        position := snapPos jp.position (posOf s (st.prevIdx l)) st.length } }
                    i0 := by
                  rw [hmid]
                  exact hi
                obtain ⟨st', hst', hconn⟩ := ih _ k l' s' f2 hrec i0 hi1
                obtain ⟨hkc, st'', hst'', hd⟩ := nextIncident_sound hni
                have hsame : st'' = st' := by
                  rw [show ({ s with
                      points := s.points.set (st.jointIdx l)
                        { jp with
                          position := snapPos jp.position (posOf s (st.prevIdx l)) st.length } }
                      : Screen).sticks = s.sticks from rfl, hst''] at hst'
                  exact Option.some.inj hst'
                subst hsame
                have hadj : sticksAdj s.sticks (st.jointIdx l) (st''.jointIdx l') := by
                  refine ⟨st'', mem_of_getElem? hst'', ?_, ?_⟩
                  · rcases hd with ⟨hA, -⟩ | ⟨-, hB, -⟩
                    · exact Or.inl hA
                    · exact Or.inr hB
                  · cases l' with
                    | A => exact Or.inl rfl
                    | B => exact Or.inr rfl
                exact ⟨st, hst, Relation.ReflTransGen.head hadj hconn⟩
              · -- moved by the snap itself
                by_cases hij : st.jointIdx l = i0
                · exact ⟨st, hst, hij ▸ Relation.ReflTransGen.refl⟩
                · exact absurd (posOf_set_ne s (st.jointIdx l) _ i0 hij) hmid

/-- Every point moved by a sweep is connected to some locked point. -/
theorem sweepFrom_moves (fuel : Nat) :
    ∀ (ks : List Nat) (s s' : Screen) (f : Bool),
      sweepFrom fuel s ks = some (s', f) →
      ∀ i : Nat, posOf s' i ≠ posOf s i →
        ∃ aL : Nat, isLockedAt s aL = true ∧ ConnectedIn s.sticks aL i := by
  intro ks
  induction ks with
  | nil =>
    intro s s' f h i hi
    rw [sweepFrom] at h
    cases h
    exact absurd rfl hi
  | cons k ks ih =>
    intro s s' f h i hi
    rw [sweepFrom] at h
    split at h
    · exact ih s s' f h i hi
    · rename_i st hstk
      split at h
      · rename_i hlockA
        split at h
        · exact Option.noConfusion h
        · rename_i s1 f1 hcall
          split at h
          · exact Option.noConfusion h
          · rename_i s2 f2 hrest
            have h12 := Option.some.inj h
            have hs := congrArg Prod.fst h12
            simp only [] at hs
            rw [← hs] at hi
            have hstep := calculate_joint_solverStep fuel s k .B s1 f1 hcall
            by_cases hmid : posOf s1 i = posOf s i
            · have hi1 : posOf s2 i ≠ posOf s1 i := by
                rw [hmid]
                exact hi
              obtain ⟨aL, haL, hconn⟩ := ih s1 s2 f2 hrest i hi1
              refine ⟨aL, by rw [← solverStep_isLockedAt hstep]; exact haL, ?_⟩
              rw [← hstep.1]
              exact hconn
            · obtain ⟨st', hst', hconn⟩ := calculate_joint_moves fuel s k .B s1 f1 hcall i hmid
              have hsame : st' = st := by
                rw [hstk] at hst'
                exact (Option.some.inj hst').symm
              subst hsame
              refine ⟨st'.pointA, hlockA, ?_⟩
              exact Relation.ReflTransGen.head
                ⟨st', mem_of_getElem? hstk, Or.inl rfl, Or.inr rfl⟩ hconn
      · rename_i hlockA
        split at h
        · rename_i hlockB
          split at h
          · exact Option.noConfusion h
          · rename_i s1 f1 hcall
            split at h
            · exact Option.noConfusion h
            · rename_i s2 f2 hrest
              have h12 := Option.some.inj h
              have hs := congrArg Prod.fst h12
              simp only [] at hs
              rw [← hs] at hi
              have hstep := calculate_joint_solverStep fuel s k .A s1 f1 hcall
              by_cases hmid : posOf s1 i = posOf s i
              · have hi1 : posOf s2 i ≠ posOf s1 i := by
                  rw [hmid]
                  exact hi
                obtain ⟨aL, haL, hconn⟩ := ih s1 s2 f2 hrest i hi1
                refine ⟨aL, by rw [← solverStep_isLockedAt hstep]; exact haL, ?_⟩
                rw [← hstep.1]
                exact hconn
              · obtain ⟨st', hst', hconn⟩ :=
                  calculate_joint_moves fuel s k .A s1 f1 hcall i hmid
                have hsame : st' = st := by
                  rw [hstk] at hst'
                  exact (Option.some.inj hst').symm
                subst hsame
                refine ⟨st'.pointB, hlockB, ?_⟩
                exact Relation.ReflTransGen.head
                  ⟨st', mem_of_getElem? hstk, Or.inr rfl, Or.inl rfl⟩ hconn
        · exact ih s s' f h i hi

theorem iterateSweeps_moves (n : Nat) :
    ∀ (fuel : Nat) (s s' : Screen) (f : Bool),
      iterateSweeps fuel n s = some (s', f) →
      ∀ i : Nat, posOf s' i ≠ posOf s i →
        ∃ aL : Nat, isLockedAt s aL = true ∧ ConnectedIn s.sticks aL i := by
  induction n with
  | zero =>
    intro fuel s s' f h i hi
    rw [iterateSweeps] at h
    cases h
    exact absurd rfl hi
  | succ n ih =>
    intro fuel s s' f h i hi
    rw [iterateSweeps] at h
    split at h
    · exact Option.noConfusion h
    · rename_i s1 f1 hsw
      split at h
      · exact Option.noConfusion h
      · rename_i s2 f2 hit
        have h12 := Option.some.inj h
        have hs := congrArg Prod.fst h12
        simp only [] at hs
        rw [← hs] at hi
        have hstep := sweepFrom_solverStep fuel (List.range s.sticks.length) s s1 f1 hsw
        by_cases hmid : posOf s1 i = posOf s i
        · have hi1 : posOf s2 i ≠ posOf s1 i := by
            rw [hmid]
            exact hi
          obtain ⟨aL, haL, hconn⟩ := ih fuel s1 s2 f2 hit i hi1
          refine ⟨aL, by rw [← solverStep_isLockedAt hstep]; exact haL, ?_⟩
          rw [← hstep.1]
          exact hconn
        · exact sweepFrom_moves fuel (List.range s.sticks.length) s s1 f1 hsw i hmid

/-- C6 (amended): a stick with neither endpoint locked *and* with neither
endpoint connected through any chain of sticks to a locked point (an
entirely anchor-free sub-structure) never has its endpoints moved by a
terminating `Resolve`.  The counterexample shows the connectivity condition
is necessary. -/
theorem c6_inert_free_amended (fuel : Nat) (s s' : Screen) (f : Bool)
    (h : s.simulate_frame fuel = some (s', f)) (k : Nat) (st : Stick)
    (hst : s.sticks[k]? = some st)
    (hfree : ∀ aL : Nat, isLockedAt s aL = true →
      ¬ ConnectedIn s.sticks aL st.pointA ∧ ¬ ConnectedIn s.sticks aL st.pointB) :
    posOf s' st.pointA = posOf s st.pointA ∧ posOf s' st.pointB = posOf s st.pointB := by
  constructor
  · by_contra hi
    obtain ⟨aL, haL, hconn⟩ := iterateSweeps_moves STICK_ITERATIONS fuel s s' f h _ hi
    exact (hfree aL haL).1 hconn
  · by_contra hi
    obtain ⟨aL, haL, hconn⟩ := iterateSweeps_moves STICK_ITERATIONS fuel s s' f h _ hi
    exact (hfree aL haL).2 hconn

/-- Connectivity cannot leave a side of the point-index space that every
стick respects. -/
theorem connectedIn_closed (sticks : List Stick) (S : Nat → Bool)
    (hcl : ∀ st ∈ sticks, S st.pointA = S st.pointB) :
    ∀ i aL : Nat, ConnectedIn sticks i aL → S i = true → S aL = true := by
  intro i aL h
  induction h with
  | refl => exact id
  | tail _ hadj ihc =>
    intro hSi
    have hSb := ihc hSi
    obtain ⟨st, hmem, hb, hc⟩ := hadj
    have hrel := hcl st hmem
    rcases hb with hb | hb <;> rcases hc with hc | hc <;>
      first
        | exact hc ▸ (hb ▸ hSb : S st.pointA = true)
        | exact hc ▸ hrel ▸ (hb ▸ hSb : S st.pointA = true)
        | exact hc ▸ hrel.symm ▸ (hb ▸ hSb : S st.pointB = true)
        | exact hc ▸ (hb ▸ hSb : S st.pointB = true)

/-- An anchored stick `p0–p1` plus an entirely free-floating stick `p2–p3`
whose current length 30 violates its rest length 10. -/
def zC6W : ZScreen :=
  ⟨[⟨0, true, 0⟩, ⟨30, false, 30⟩, ⟨100, false, 100⟩, ⟨130, false, 130⟩],
   [⟨0, 1, 50⟩, ⟨2, 3, 10⟩]⟩

/-- After `Resolve`: `p1` snapped to 50, the free-floating stick untouched. -/
def zC6W1 : ZScreen :=
  ⟨[⟨0, true, 0⟩, ⟨50, false, 30⟩, ⟨100, false, 100⟩, ⟨130, false, 130⟩],
   [⟨0, 1, 50⟩, ⟨2, 3, 10⟩]⟩

theorem zC6W_run : zSimulateFrame 5 zC6W = some (zC6W1, false) := by decide

theorem embed_zC6W_run :
    (embedScreen zC6W).simulate_frame 5 = some (embedScreen zC6W1, false) := by
  rw [embed_simulate_frame, zC6W_run]
  rfl

theorem zC6W_free : ∀ aL : Nat, isLockedAt (embedScreen zC6W) aL = true →
    ¬ ConnectedIn (embedScreen zC6W).sticks aL
        (embedStick ⟨2, 3, (10 : ℤ)⟩).pointA ∧
    ¬ ConnectedIn (embedScreen zC6W).sticks aL
        (embedStick ⟨2, 3, (10 : ℤ)⟩).pointB := by
  intro aL haL
  rw [embed_isLockedAt] at haL
  have haL0 : aL = 0 := by
    by_contra hne
    have h4 : aL < 4 := by
      by_contra hge
      rw [zIsLockedAt, List.getElem?_eq_none (by
        rw [show zC6W.points.length = 4 from rfl]
        omega)] at haL
      exact Bool.noConfusion haL
    interval_cases aL
    · exact hne rfl
    · exact Bool.noConfusion haL
    · exact Bool.noConfusion haL
    · exact Bool.noConfusion haL
  subst haL0
  have hS : ∀ st ∈ (embedScreen zC6W).sticks,
      (fun x => decide (x = 0 ∨ x = 1)) st.pointA = (fun x => decide (x = 0 ∨ x = 1)) st.pointB := by
    intro st hmem
    rcases List.mem_cons.mp hmem with hc | hc
    · subst hc
      rfl
    · rcases List.mem_cons.mp hc with hc' | hc'
      · subst hc'
        rfl
      · exact absurd hc' (List.not_mem_nil _)
  constructor
  · intro hconn
    have := connectedIn_closed (embedScreen zC6W).sticks (fun x => decide (x = 0 ∨ x = 1))
      hS 0 _ hconn (by decide)
    exact Bool.noConfusion this
  · intro hconn
    have := connectedIn_closed (embedScreen zC6W).sticks (fun x => decide (x = 0 ∨ x = 1))
      hS 0 _ hconn (by decide)
    exact Bool.noConfusion this

/-- C6 witness: on the concrete skeleton with a free-floating stick, both
endpoints of that stick are unmoved by the run. -/
theorem c6_inert_free_amended_witness :
    posOf (embedScreen zC6W1) (embedStick ⟨2, 3, (10 : ℤ)⟩).pointA
        = posOf (embedScreen zC6W) (embedStick ⟨2, 3, (10 : ℤ)⟩).pointA ∧
    posOf (embedScreen zC6W1) (embedStick ⟨2, 3, (10 : ℤ)⟩).pointB
        = posOf (embedScreen zC6W) (embedStick ⟨2, 3, (10 : ℤ)⟩).pointB :=
  c6_inert_free_amended 5 (embedScreen zC6W) (embedScreen zC6W1) false embed_zC6W_run 1
    (embedStick ⟨2, 3, (10 : ℤ)⟩) rfl zC6W_free

/-!
## Termination on chains (C5 amended)

On a skeleton whose sticks form a simple open chain (stick `k` joins points
`k` and `k+1`), the walk of `calculate_joint` moves strictly monotonically
along the chain — the first incident stick other than the current one is
always the next (or previous) chain stick — so a fuel bound of
`#sticks + 1` suffices and `Resolve` runs to completion.
-/

/-- Stick `k` joins points `k` and `k+1`: a simple open chain. -/
def IsChain (s : Screen) : Prop :=
  ∀ (k : Nat) (st : Stick), s.sticks[k]? = some st → st.pointA = k ∧ st.pointB = k + 1

theorem isChain_of_sticks_eq {s t : Screen} (hst : t.sticks = s.sticks) (hch : IsChain s) :
    IsChain t := fun k st h => hch k st (hst ▸ h)

theorem chain_calculate_isSome (fuel : Nat) :
    ∀ (s : Screen) (c : Nat) (l : Letter),
      IsChain s →
      (match l with | .B => s.sticks.length - c | .A => c + 1) < fuel →
      (calculate_joint fuel s c l).isSome := by
  induction fuel with
  | zero => intro s c l hch hm; exact absurd hm (by omega)
  | succ fuel ih =>
    intro s c l hch hm
    rw [calculate_joint]
    split
    · simp
    · rename_i st hst
      split
      · simp
      · rename_i jp hjp
        split
        · simp
        · simp only []
          split
          · simp
          · rename_i k l' hni
            obtain ⟨hkc, stk, hstk, hd⟩ := nextIncident_sound hni
            have hstk' : s.sticks[k]? = some stk := hstk
            obtain ⟨hA, hB⟩ := hch k stk hstk'
            obtain ⟨hcA, hcB⟩ := hch c st hst
            have hclen : c < s.sticks.length := (List.getElem?_eq_some.mp hst).1
            have hchS : IsChain { s with
                points := s.points.set (st.jointIdx l)
                  { jp with
                    position := snapPos jp.position (posOf s (st.prevIdx l)) st.length } } :=
              isChain_of_sticks_eq rfl hch
            have hrec : (calculate_joint fuel { s with
                points := s.points.set (st.jointIdx l)
                  { jp with
                    position := snapPos jp.position (posOf s (st.prevIdx l)) st.length } }
                k l').isSome := by
              apply ih _ k l' hchS
              cases l with
              | B =>
                simp only [] at hm
                rcases hd with ⟨h1, h2⟩ | ⟨h1, h2, h3⟩
                · subst h2
                  have hkc1 : k = c + 1 := by
                    rw [hA] at h1
                    rw [h1]
                    exact hcB
                  subst hkc1
                  show s.sticks.length - (c + 1) < fuel
                  omega
                · exfalso
                  rw [hB] at h2
                  rw [show st.jointIdx Letter.B = st.pointB from rfl, hcB] at h2
                  exact hkc (by omega)
              | A =>
                simp only [] at hm
                rcases hd with ⟨h1, h2⟩ | ⟨h1, h2, h3⟩
                · exfalso
                  rw [hA] at h1
                  rw [show st.jointIdx Letter.A = st.pointA from rfl, hcA] at h1
                  exact hkc h1
                · subst h3
                  have hkc1 : k + 1 = c := by
                    rw [hB] at h2
                    rw [show st.jointIdx Letter.A = st.pointA from rfl, hcA] at h2
                    exact h2
                  show k + 1 < fuel
                  omega
            obtain ⟨r, hr⟩ := Option.isSome_iff_exists.mp hrec
            rw [hr]
            simp

theorem chain_sweepFrom_isSome (fuel : Nat) :
    ∀ (ks : List Nat) (s : Screen), IsChain s → s.sticks.length < fuel →
      (sweepFrom fuel s ks).isSome := by
  intro ks
  induction ks with
  | nil =>
    intro s hch hlen
    rw [sweepFrom]
    simp
  | cons k ks ih =>
    intro s hch hlen
    rw [sweepFrom]
    split
    · exact ih s hch hlen
    · rename_i st hstk
      have hklen : k < s.sticks.length := (List.getElem?_eq_some.mp hstk).1
      split
      · have hc := chain_calculate_isSome fuel s k .B hch (by show _ - _ < _; omega)
        obtain ⟨r, hr⟩ := Option.isSome_iff_exists.mp hc
        obtain ⟨s1, f1⟩ := r
        rw [hr]
        simp only []
        have hstep := calculate_joint_solverStep fuel s k .B s1 f1 hr
        have hrest := ih s1 (isChain_of_sticks_eq hstep.1 hch) (by rw [hstep.1]; exact hlen)
        obtain ⟨r', hr'⟩ := Option.isSome_iff_exists.mp hrest
        obtain ⟨s2, f2⟩ := r'
        rw [hr']
        simp
      · split
        · have hc := chain_calculate_isSome fuel s k .A hch (by show _ + 1 < _; omega)
          obtain ⟨r, hr⟩ := Option.isSome_iff_exists.mp hc
          obtain ⟨s1, f1⟩ := r
          rw [hr]
          simp only []
          have hstep := calculate_joint_solverStep fuel s k .A s1 f1 hr
          have hrest := ih s1 (isChain_of_sticks_eq hstep.1 hch) (by rw [hstep.1]; exact hlen)
          obtain ⟨r', hr'⟩ := Option.isSome_iff_exists.mp hrest
          obtain ⟨s2, f2⟩ := r'
          rw [hr']
          simp
        · exact ih s hch hlen

theorem chain_iterateSweeps_isSome (n : Nat) :
    ∀ (fuel : Nat) (s : Screen), IsChain s → s.sticks.length < fuel →
      (iterateSweeps fuel n s).isSome := by
  induction n with
  | zero =>
    intro fuel s hch hlen
    rw [iterateSweeps]
    simp
  | succ n ih =>
    intro fuel s hch hlen
    rw [iterateSweeps]
    have hsw : (sweep fuel s).isSome :=
      chain_sweepFrom_isSome fuel (List.range s.sticks.length) s hch hlen
    obtain ⟨r, hr⟩ := Option.isSome_iff_exists.mp hsw
    obtain ⟨s1, f1⟩ := r
    rw [hr]
    simp only []
    have hstep := sweepFrom_solverStep fuel (List.range s.sticks.length) s s1 f1 hr
    have hrest := ih fuel s1 (isChain_of_sticks_eq hstep.1 hch) (by rw [hstep.1]; exact hlen)
    obtain ⟨r', hr'⟩ := Option.isSome_iff_exists.mp hrest
    obtain ⟨s2, f2⟩ := r'
    rw [hr']
    simp

/-- C5 (amended): on every skeleton whose sticks form a simple open chain,
`Resolve` terminates (a fuel bound of `#sticks + 1` suffices for the
recursive walk).  The counterexample shows termination fails for general
skeletons: an anchor-reachable cycle of sticks makes the walk revisit
sticks indefinitely. -/
theorem c5_termination_amended (s : Screen) (hch : IsChain s) :
    ∃ (fuel : Nat) (s' : Screen) (f : Bool), s.simulate_frame fuel = some (s', f) := by
  have h := chain_iterateSweeps_isSome STICK_ITERATIONS (s.sticks.length + 1) s hch (by omega)
  obtain ⟨r, hr⟩ := Option.isSome_iff_exists.mp h
  exact ⟨s.sticks.length + 1, r.1, r.2, hr⟩

/-- C5 witness: the single-stick skeleton is a chain, and `Resolve`
terminates on it. -/
theorem c5_termination_amended_witness :
    ∃ (fuel : Nat) (s' : Screen) (f : Bool),
      (embedScreen zA).simulate_frame fuel = some (s', f) := by
  apply c5_termination_amended (embedScreen zA)
  intro k st hst
  cases k with
  | zero =>
    have hval : st = embedStick ⟨0, 1, 50⟩ := by
      rw [show (embedScreen zA).sticks[0]? = some (embedStick ⟨0, 1, 50⟩) from rfl] at hst
      exact (Option.some.inj hst).symm
    subst hval
    exact ⟨rfl, rfl⟩
  | succ k =>
    rw [List.getElem?_eq_none (by
      rw [show (embedScreen zA).sticks.length = 1 from rfl]
      omega)] at hst
    exact Option.noConfusion hst

end IK
